import Mathlib

/-!
File-tree navigation of `runtime/ui/components/filetree_primative.go`.

A shallow embedding of the `TreeView` navigation component: the selection index
`treeIndex`, the viewport top `bufferIndexLowerBound`, the global collapse toggle, and the
key actions that move them over a collapsible, filterable file tree.

Go `int` values are embedded as `Int`: every index handled here is bounded by the number of
nodes of a tree held in memory, far from the 64-bit range.  A Go panic is embedded as the
`Except.error` branch of `Except Panic`.
-/

namespace Dive

/-! ## The tree model consumed by the component -/

/-- Modelled from the spec: the `FileInfo` part of a node's data, of which the component reads
only `isDirectory` (Go: `node.Data.FileInfo.IsDir`). The declaration is in package `filetree`. -/
structure FileInfo where
  IsDir : Bool
deriving DecidableEq, Repr

/-- Modelled from the spec: the `ViewInfo` part of a node's data, the `collapsed` and `hidden`
flags (Go: `node.Data.ViewInfo.Collapsed`, `node.Data.ViewInfo.Hidden`). -/
structure ViewInfo where
  Collapsed : Bool
  Hidden : Bool
deriving DecidableEq, Repr

/-- Modelled from the spec: the data of a node (Go: `node.Data`). -/
structure NodeData where
  FileInfo : Dive.FileInfo
  ViewInfo : Dive.ViewInfo
deriving DecidableEq, Repr

/-- The store `n.Data.ViewInfo.Collapsed = v`. -/
def NodeData.setCollapsed (d : NodeData) (v : Bool) : NodeData :=
  { d with ViewInfo := { d.ViewInfo with Collapsed := v } }

/-- Modelled from the spec: a node of the external tree, "hierarchical item with isDirectory,
collapsed, hidden flags, an ordered sequence of child nodes". The parent back-reference is
carried by `NodeRef`, the embedding of a `*filetree.FileNode` pointer. -/
inductive FileNode where
  | mk (Data : NodeData) (Children : List FileNode)
deriving Repr

/-- Data of a node (Go: `node.Data`). -/
def FileNode.Data : FileNode → NodeData
  | .mk d _ => d

/-- Children of a node (Go: `node.Children`). -/
def FileNode.Children : FileNode → List FileNode
  | .mk _ cs => cs

/-- Modelled from the spec: a `*filetree.FileNode` as a visitor or evaluator receives it: the
node's path (the child positions leading to it from the root, which identify the node: "id/path
lookup"), its data and children, and the "non-owning parent back-reference", absent at the
root. -/
inductive NodeRef where
  | mk (path : List Nat) (Parent : Option NodeRef) (Data : NodeData) (Children : List FileNode)

/-- Path of the node referred to (Go: `node.Path()`). -/
def NodeRef.Path : NodeRef → List Nat
  | .mk p _ _ _ => p

/-- Parent back-reference (Go: `node.Parent`), `none` for the nil pointer. -/
def NodeRef.Parent : NodeRef → Option NodeRef
  | .mk _ p _ _ => p

/-- Data of the node referred to (Go: `node.Data`). -/
def NodeRef.Data : NodeRef → NodeData
  | .mk _ _ d _ => d

/-- Children of the node referred to (Go: `node.Children`). -/
def NodeRef.Children : NodeRef → List FileNode
  | .mk _ _ _ cs => cs

/-- An `error` value returned by a visitor or by the traversal. -/
structure Error where
  msg : String
deriving DecidableEq, Repr

/-- A Go panic: a nil pointer dereference, or an explicit `panic(err)`. -/
inductive Panic where
  | nilPointerDereference
  | raised (cause : Error)
deriving DecidableEq, Repr

/-- What one call of a visitor leaves behind: the data of the visited node (a visitor may store
into `n.Data`), the variables its closure captured, and the error it returned. -/
structure VisitStep (σ : Type) where
  Data : NodeData
  state : σ
  err : Option Error

/-- A `filetree.Visitor`, with the captured variables of its closure passed explicitly. -/
abbrev Visitor (σ : Type) := NodeRef → σ → VisitStep σ

/-- A `filetree.VisitEvaluator`; it may dereference a nil pointer. -/
abbrev VisitEvaluator := NodeRef → Except Panic Bool

/-- What a traversal leaves behind: the tree, the captured variables, the returned error. -/
structure VisitResult (τ σ : Type) where
  tree : τ
  state : σ
  err : Option Error

mutual
/-- Modelled from the spec: the parent-first depth-first walk below `VisitDepthParentFirst`, at
a retained node: "visitor is invoked per retained node", then the children are walked in order;
an error of the visitor ends the walk and is returned. -/
def visitNode {σ : Type} (visitor : Visitor σ) (evaluator : VisitEvaluator)
    (path : List Nat) (parent : Option NodeRef) (s : σ) :
    FileNode → Except Panic (VisitResult FileNode σ)
  | .mk data children =>
    let step := visitor (.mk path parent data children) s
    match step.err with
    | some e => .ok ⟨.mk step.Data children, step.state, some e⟩
    | none =>
      match visitChildren visitor evaluator path (.mk path parent step.Data children) 0
          step.state children with
      | .error p => .error p
      | .ok r => .ok ⟨.mk step.Data r.tree, r.state, r.err⟩
/-- Modelled from the spec: the walk over the children of a retained node: "evaluator prunes
subtrees", so a child the evaluator rejects is skipped with everything below it. -/
def visitChildren {σ : Type} (visitor : Visitor σ) (evaluator : VisitEvaluator)
    (ppath : List Nat) (parent : NodeRef) (i : Nat) (s : σ) :
    List FileNode → Except Panic (VisitResult (List FileNode) σ)
  | [] => .ok ⟨[], s, none⟩
  | c :: rest =>
    match evaluator (.mk (ppath ++ [i]) (some parent) c.Data c.Children) with
    | .error p => .error p
    | .ok false =>
      match visitChildren visitor evaluator ppath parent (i + 1) s rest with
      | .error p => .error p
      | .ok r => .ok ⟨c :: r.tree, r.state, r.err⟩
    | .ok true =>
      match visitNode visitor evaluator (ppath ++ [i]) (some parent) s c with
      | .error p => .error p
      | .ok rc =>
        match rc.err with
        | some e => .ok ⟨rc.tree :: rest, rc.state, some e⟩
        | none =>
          match visitChildren visitor evaluator ppath parent (i + 1) rc.state rest with
          | .error p => .error p
          | .ok r => .ok ⟨rc.tree :: r.tree, r.state, r.err⟩
end

/-- Modelled from the spec: the tree model behind the `TreeModel` interface (Go: `t.tree`),
reduced to the tree it holds. -/
structure TreeModel where
  Root : FileNode
deriving Repr

/-- Modelled from the spec: `visitDepthParentFirst(visitor, evaluator) -> error|ok`, "a single
parent-first depth-first walk": the walk starts at the root, which is the first retained node
(index 0 of the spec's scenario) and has no parent for an evaluator to consult. -/
def TreeModel.VisitDepthParentFirst {σ : Type} (tree : TreeModel) (visitor : Visitor σ)
    (evaluator : VisitEvaluator) (s : σ) : Except Panic (VisitResult TreeModel σ) :=
  match visitNode visitor evaluator [] none s tree.Root with
  | .error p => .error p
  | .ok r => .ok ⟨⟨r.tree⟩, r.state, r.err⟩

/-- Modelled from the spec: the visibility evaluator `visible(n) = !n.parent.collapsed &&
!n.hidden` of the tree model; the component's own copies of it are `getAbsPositionNode.evaluator`
and `keyLeft.evaluator`. -/
def visibleEvaluator : VisitEvaluator := fun curNode =>
  match curNode.Parent with
  | none => .error .nilPointerDereference
  | some parent => .ok (!parent.Data.ViewInfo.Collapsed && !curNode.Data.ViewInfo.Hidden)

/-- Modelled from the spec: `visibleSize() -> int`, the "current count of visible nodes": the
number of nodes on which the visibility-filtered parent-first walk invokes its visitor. -/
def TreeModel.VisibleSize (tree : TreeModel) : Int :=
  match tree.VisitDepthParentFirst (fun n (size : Int) => ⟨n.Data, size + 1, none⟩)
      visibleEvaluator 0 with
  | .ok r => r.state
  | .error _ => 0

mutual
/-- A store `node.Data.ViewInfo.Collapsed = v` through the pointer to the node at `path`:
the tree with that node's flag set, the identity when no node has this path. -/
def FileNode.setCollapsedAt (v : Bool) : List Nat → FileNode → FileNode
  | [], .mk d cs => .mk (d.setCollapsed v) cs
  | i :: p, .mk d cs => .mk d (setCollapsedAtList v i p cs)
/-- The store of `FileNode.setCollapsedAt` below the `i`-th node of a list of children. -/
def setCollapsedAtList (v : Bool) : Nat → List Nat → List FileNode → List FileNode
  | _, _, [] => []
  | 0, p, c :: cs => c.setCollapsedAt v p :: cs
  | i + 1, p, c :: cs => c :: setCollapsedAtList v i p cs
end

/-- The store `node.Data.ViewInfo.Collapsed = v` through a node pointer into the tree model. -/
def TreeModel.setCollapsed (tree : TreeModel) (node : NodeRef) (v : Bool) : TreeModel :=
  ⟨tree.Root.setCollapsedAt v node.Path⟩

/-- Modelled from the spec: `Path()` called through a pointer that may be nil, as in
`currentNode.Parent.Path()` at the root. The spec makes moveLeft at the root a no-op, so the
call on the absent parent does not fail and yields no node's path (`none`). -/
def pathOf (node : Option NodeRef) : Option (List Nat) :=
  node.map NodeRef.Path

/-! ## The component -/

/-- Modelled from the spec: the render surface behind the embedded `*tview.Box`, "a fixed-size
rectangular character grid exposing its inner width/height". -/
structure TviewBox where
  x : Int
  y : Int
  width : Int
  height : Int
deriving DecidableEq, Repr

/-- The inner rectangle of the box (Go: `t.Box.GetInnerRect()`). -/
def TviewBox.GetInnerRect (b : TviewBox) : Int × Int × Int × Int :=
  (b.x, b.y, b.width, b.height)

/-- The `TreeView` struct, without its input handler and key-binding table. -/
structure TreeView where
  Box : TviewBox
  tree : TreeModel
  treeIndex : Int
  bufferIndexLowerBound : Int
  globalCollapseAll : Bool
  showAttributes : Bool

/-- The constructor `NewTreeView`: the zero values of Go for the two indexes; the box is passed in with the
rectangle the layout gives it. -/
def NewTreeView (box : TviewBox) (tree : TreeModel) : TreeView :=
  { Box := box
    tree := tree
    treeIndex := 0
    bufferIndexLowerBound := 0
    globalCollapseAll := true
    showAttributes := true }

/-- The helper `intMin`. -/
def intMin (a b : Int) : Int :=
  if a < b then a else b

/-- Modelled from the spec: `intMax`, declared elsewhere in the package; the spec has pageUp set
`selectedIndex = max(0, selectedIndex - frameHeight)`. -/
def intMax (a b : Int) : Int :=
  if a > b then a else b

/-- The visitor closure of `getAbsPositionNode`, over its captured `dfsCounter` and `node`. -/
def getAbsPositionNode.visitor (treeIndex : Int) : Visitor (Int × Option NodeRef) :=
  fun curNode s =>
    let dfsCounter := s.1
    let node := if dfsCounter == treeIndex then some curNode else s.2
    ⟨curNode.Data, (dfsCounter + 1, node), none⟩

/-- The evaluator closure of `getAbsPositionNode`. -/
def getAbsPositionNode.evaluator : VisitEvaluator := fun curNode =>
  match curNode.Parent with
  | none => .error .nilPointerDereference
  | some parent => .ok (!parent.Data.ViewInfo.Collapsed && !curNode.Data.ViewInfo.Hidden)

/-- The method `TreeView.getAbsPositionNode`: the node under the cursor, `none` for the nil pointer. An
error of the traversal is logged and the node found so far is returned. -/
def TreeView.getAbsPositionNode (t : TreeView) : Except Panic (Option NodeRef) :=
  match t.tree.VisitDepthParentFirst (getAbsPositionNode.visitor t.treeIndex)
      getAbsPositionNode.evaluator (0, none) with
  | .error p => .error p
  | .ok r => .ok r.state.2

/-- The method `TreeView.collapseDir`. -/
def TreeView.collapseDir (t : TreeView) : Except Panic (TreeView × Bool) :=
  match t.getAbsPositionNode with
  | .error p => .error p
  | .ok none => .ok (t, false)
  | .ok (some node) =>
    if node.Data.FileInfo.IsDir then
      .ok ({ t with tree := t.tree.setCollapsed node (!node.Data.ViewInfo.Collapsed) }, true)
    else
      .ok (t, false)

/-- The visitor closure of `collapseOrExpandAll`; it captures no variable it writes. -/
def collapseOrExpandAll.visitor (globalCollapseAll : Bool) : Visitor Unit :=
  fun n _ =>
    if n.Data.FileInfo.IsDir then
      ⟨n.Data.setCollapsed globalCollapseAll, (), none⟩
    else
      ⟨n.Data, (), none⟩

/-- The evaluator closure of `collapseOrExpandAll`. -/
def collapseOrExpandAll.evaluator : VisitEvaluator := fun _ => .ok true

/-- The method `TreeView.collapseOrExpandAll`. -/
def TreeView.collapseOrExpandAll (t : TreeView) : Except Panic (TreeView × Bool) :=
  match t.tree.VisitDepthParentFirst (collapseOrExpandAll.visitor t.globalCollapseAll)
      collapseOrExpandAll.evaluator () with
  | .error p => .error p
  | .ok r =>
    match r.err with
    | some err => .error (.raised err)
    | none => .ok ({ t with tree := r.tree, globalCollapseAll := !t.globalCollapseAll }, true)

/-- The method `TreeView.keyDown`. -/
def TreeView.keyDown (t : TreeView) : TreeView × Bool :=
  let (_, _, _, height) := t.Box.GetInnerRect
  if t.treeIndex >= t.tree.VisibleSize then
    (t, false)
  else
    let treeIndex := t.treeIndex + 1
    let bufferIndexLowerBound :=
      if (treeIndex - t.bufferIndexLowerBound) >= height then t.bufferIndexLowerBound + 1
      else t.bufferIndexLowerBound
    ({ t with treeIndex := treeIndex, bufferIndexLowerBound := bufferIndexLowerBound }, true)

/-- The call `t.getAbsPositionNode().Path()` of `keyUp`: `Path()` reads the fields of the node
it is called on, and the call is made on the result of `getAbsPositionNode` without the
`node != nil` test that `collapseDir` makes, so on a nil result it is a nil pointer
dereference. The one call treated otherwise is the call through the parent pointer in
`keyLeft`, which `pathOf` models from the spec. -/
def pathThrough (node : Option NodeRef) : Except Panic (List Nat) :=
  match node with
  | none => .error .nilPointerDereference
  | some n => .ok n.Path

/-- The method `TreeView.keyUp`. After the indexes are stored, the node under the new cursor is
resolved and its path taken for the debug log; the arguments of the log call are evaluated
whatever the log level. -/
def TreeView.keyUp (t : TreeView) : Except Panic (TreeView × Bool) :=
  if t.treeIndex <= 0 then
    .ok (t, false)
  else
    let treeIndex := t.treeIndex - 1
    let bufferIndexLowerBound :=
      if treeIndex < t.bufferIndexLowerBound then t.bufferIndexLowerBound - 1
      else t.bufferIndexLowerBound
    let t1 := { t with treeIndex := treeIndex, bufferIndexLowerBound := bufferIndexLowerBound }
    match t1.getAbsPositionNode with
    | .error p => .error p
    | .ok node =>
      match pathThrough node with
      | .error p => .error p
      | .ok _ => .ok (t1, true)

/-- The method `TreeView.keyRight`. -/
def TreeView.keyRight (t : TreeView) : Except Panic (TreeView × Bool) :=
  match t.getAbsPositionNode with
  | .error p => .error p
  | .ok none => .ok (t, false)
  | .ok (some node) =>
    let (_, _, _, height) := t.Box.GetInnerRect
    if !node.Data.FileInfo.IsDir then
      .ok (t, false)
    else if node.Children.length == 0 then
      .ok (t, false)
    else
      let tree := if node.Data.ViewInfo.Collapsed then t.tree.setCollapsed node false else t.tree
      let treeIndex := t.treeIndex + 1
      let bufferIndexLowerBound :=
        if (treeIndex - t.bufferIndexLowerBound) >= height then t.bufferIndexLowerBound + 1
        else t.bufferIndexLowerBound
      .ok ({ t with tree := tree, treeIndex := treeIndex,
                    bufferIndexLowerBound := bufferIndexLowerBound }, true)

/-- The visitor closure of `keyLeft`, over its captured `dfsCounter` and `newIndex`. -/
def keyLeft.visitor (parentPath : Option (List Nat)) : Visitor (Int × Int) :=
  fun curNode s =>
    let dfsCounter := s.1
    let newIndex := if parentPath == some curNode.Path then dfsCounter else s.2
    ⟨curNode.Data, (dfsCounter + 1, newIndex), none⟩

/-- The evaluator closure of `keyLeft`. -/
def keyLeft.evaluator : VisitEvaluator := fun curNode =>
  match curNode.Parent with
  | none => .error .nilPointerDereference
  | some parent => .ok (!parent.Data.ViewInfo.Collapsed && !curNode.Data.ViewInfo.Hidden)

/-- The method `TreeView.keyLeft`. -/
def TreeView.keyLeft (t : TreeView) : Except Panic (TreeView × Bool) :=
  match t.getAbsPositionNode with
  | .error p => .error p
  | .ok none => .ok (t, true)
  | .ok (some currentNode) =>
    let parentPath := pathOf currentNode.Parent
    match t.tree.VisitDepthParentFirst (keyLeft.visitor parentPath) keyLeft.evaluator (0, 0) with
    | .error p => .error p
    | .ok r =>
      match r.err with
      | some err => .error (.raised err)
      | none =>
        let newIndex := r.state.2
        let treeIndex := newIndex
        let bufferIndexLowerBound :=
          if newIndex < t.bufferIndexLowerBound then treeIndex else t.bufferIndexLowerBound
        .ok ({ t with treeIndex := treeIndex, bufferIndexLowerBound := bufferIndexLowerBound },
          true)

/-- The method `TreeView.bufferIndexUpperBound`. -/
def TreeView.bufferIndexUpperBound (t : TreeView) : Int :=
  let (_, _, _, height) := t.Box.GetInnerRect
  t.bufferIndexLowerBound + height

/-- The method `TreeView.pageDown`. -/
def TreeView.pageDown (t : TreeView) : TreeView × Bool :=
  let (_, _, _, height) := t.Box.GetInnerRect
  let visibleSize := t.tree.VisibleSize
  let t1 := { t with treeIndex := intMin (t.treeIndex + height) visibleSize }
  let t2 :=
    if t1.treeIndex >= t1.bufferIndexUpperBound then
      { t1 with bufferIndexLowerBound := intMin t1.treeIndex (visibleSize - height + 1) }
    else t1
  (t2, true)

/-- The method `TreeView.pageUp`. -/
def TreeView.pageUp (t : TreeView) : TreeView × Bool :=
  let (_, _, _, height) := t.Box.GetInnerRect
  let t1 := { t with treeIndex := intMax 0 (t.treeIndex - height) }
  let t2 :=
    if t1.treeIndex < t1.bufferIndexLowerBound then
      { t1 with bufferIndexLowerBound := t1.treeIndex }
    else t1
  (t2, true)

/-! ## Sequences of key actions -/

/-- The eight navigation actions a key press can trigger. -/
inductive Action where
  | keyUp
  | keyDown
  | keyLeft
  | keyRight
  | pageUp
  | pageDown
  | collapseDir
  | collapseOrExpandAll
deriving DecidableEq, Repr

/-- One completed action: the state it leaves, its boolean result dropped. -/
def TreeView.act (t : TreeView) : Action → Except Panic TreeView
  | .keyUp => t.keyUp.map Prod.fst
  | .keyDown => .ok t.keyDown.1
  | .keyLeft => t.keyLeft.map Prod.fst
  | .keyRight => t.keyRight.map Prod.fst
  | .pageUp => .ok t.pageUp.1
  | .pageDown => .ok t.pageDown.1
  | .collapseDir => t.collapseDir.map Prod.fst
  | .collapseOrExpandAll => t.collapseOrExpandAll.map Prod.fst

/-- A finite sequence of actions, each run on the state the previous one left. -/
def TreeView.run (t : TreeView) : List Action → Except Panic TreeView
  | [] => .ok t
  | a :: rest =>
    match t.act a with
    | .error p => .error p
    | .ok t1 => t1.run rest

/-- The panic in which an action or a sequence of actions stopped, if it did not return. -/
def panicOf {α : Type} : Except Panic α → Option Panic
  | .error p => some p
  | .ok _ => none

/-! ## The nodes a traversal retains -/

mutual
/-- The nodes on which the visibility-filtered walk invokes its visitor, in the order of the
calls, from a retained node on. -/
def retainedNode (path : List Nat) (parent : Option NodeRef) : FileNode → List NodeRef
  | .mk d cs => .mk path parent d cs :: retainedChildren path (.mk path parent d cs) 0 cs
/-- The nodes on which the visibility-filtered walk invokes its visitor, below the children of
a retained node. -/
def retainedChildren (ppath : List Nat) (parent : NodeRef) (i : Nat) :
    List FileNode → List NodeRef
  | [] => []
  | c :: rest =>
    (if !parent.Data.ViewInfo.Collapsed && !c.Data.ViewInfo.Hidden then
        retainedNode (ppath ++ [i]) (some parent) c
      else [])
      ++ retainedChildren ppath parent (i + 1) rest
end

/-- The visible nodes of a tree model, in the order of the visibility-filtered walk. -/
def TreeModel.visibleNodes (tree : TreeModel) : List NodeRef :=
  retainedNode [] none tree.Root

mutual
/-- The paths of the visible nodes at and below a retained node, relative to it. -/
def shownPaths : FileNode → List (List Nat)
  | .mk d cs => [] :: shownPathsList d.ViewInfo.Collapsed 0 cs
/-- The paths of the visible nodes below the children of a retained node, relative to it. -/
def shownPathsList (parentCollapsed : Bool) (i : Nat) : List FileNode → List (List Nat)
  | [] => []
  | c :: rest =>
    (if !parentCollapsed && !c.Data.ViewInfo.Hidden then (shownPaths c).map (List.cons i)
      else [])
      ++ shownPathsList parentCollapsed (i + 1) rest
end

mutual
/-- The tree with the `Collapsed` flag of every directory set to `v`. -/
def FileNode.setAllDirs (v : Bool) : FileNode → FileNode
  | .mk d cs => .mk (if d.FileInfo.IsDir then d.setCollapsed v else d) (setAllDirsList v cs)
/-- The children with the `Collapsed` flag of every directory at or below them set to `v`. -/
def setAllDirsList (v : Bool) : List FileNode → List FileNode
  | [] => []
  | c :: cs => c.setAllDirs v :: setAllDirsList v cs
end

/-! ## Enumerations the claims speak of -/

mutual
/-- The `Collapsed` flags of the directory nodes of a tree, parent first. -/
def dirFlags : FileNode → List Bool
  | .mk d cs => (if d.FileInfo.IsDir then [d.ViewInfo.Collapsed] else []) ++ dirFlagsList cs
/-- The `Collapsed` flags of the directory nodes at and below a list of children. -/
def dirFlagsList : List FileNode → List Bool
  | [] => []
  | c :: cs => dirFlags c ++ dirFlagsList cs
end

mutual
/-- Every node at and below a node, parent first, each with its path and parent chain. -/
def allNodes (path : List Nat) (parent : Option NodeRef) : FileNode → List NodeRef
  | .mk d cs => .mk path parent d cs :: allNodesList path (.mk path parent d cs) 0 cs
/-- Every node at and below the children of a node, parent first. -/
def allNodesList (ppath : List Nat) (parent : NodeRef) (i : Nat) :
    List FileNode → List NodeRef
  | [] => []
  | c :: rest => allNodes (ppath ++ [i]) (some parent) c ++ allNodesList ppath parent (i + 1) rest
end

/-- The ancestor chain of a node, nearest first, followed along the parent back-reference. -/
def NodeRef.ancestors : NodeRef → List NodeRef
  | .mk _ none _ _ => []
  | .mk _ (some p) _ _ => p :: p.ancestors

/-- The root, whatever its flags, and every other node that is not hidden and none of whose
ancestors is collapsed or, the root apart, hidden. -/
def shownInTree (r : NodeRef) : Bool :=
  r.Parent.isNone
    || (!r.Data.ViewInfo.Hidden
      && r.ancestors.all fun a =>
        !a.Data.ViewInfo.Collapsed && (a.Parent.isNone || !a.Data.ViewInfo.Hidden))

/-- The path `q` leads strictly below the node at path `p`: `q` is `p` followed by at least
one more step. -/
def below : List Nat → List Nat → Bool
  | [], [] => false
  | [], _ :: _ => true
  | _ :: _, [] => false
  | i :: p, j :: q => i == j && below p q

/-- The visible node at position `treeIndex`, if there is one. -/
def TreeView.selected (t : TreeView) : Option NodeRef :=
  if 0 ≤ t.treeIndex then t.tree.visibleNodes[t.treeIndex.toNat]? else none

/-- The part of the state invariant that every action keeps at frame height `h`: the indexes
are not negative and the selection is above the bottom of the viewport, of height at least 1. -/
def TreeView.Bounded (h : Int) (t : TreeView) : Prop :=
  t.Box.height = h ∧ 1 ≤ h ∧ 0 ≤ t.treeIndex ∧ 0 ≤ t.bufferIndexLowerBound
    ∧ t.treeIndex < t.bufferIndexLowerBound + h

/-- The part of the state invariant that needs the selection to stay within the visible nodes:
the selection is at most `VisibleSize()` and not above the top of the viewport. -/
def TreeView.InRange (t : TreeView) : Prop :=
  t.treeIndex ≤ t.tree.VisibleSize ∧ t.bufferIndexLowerBound ≤ t.treeIndex

mutual
/-- The data of the node at a path, read through the tree. -/
def FileNode.dataAt : List Nat → FileNode → Option NodeData
  | [], .mk d _ => some d
  | i :: p, .mk _ cs => dataAtList i p cs
/-- The data of the node at a path below the `i`-th node of a list of children. -/
def dataAtList : Nat → List Nat → List FileNode → Option NodeData
  | _, _, [] => none
  | 0, p, c :: _ => c.dataAt p
  | i + 1, p, _ :: cs => dataAtList i p cs
end

/-! ## Concrete trees and states -/

/-- A file, neither hidden nor collapsed. -/
def FileNode.file : FileNode :=
  .mk ⟨⟨false⟩, ⟨false, false⟩⟩ []

/-- A directory that is not hidden, with the given `Collapsed` flag and children. -/
def FileNode.dir (collapsed : Bool) (children : List FileNode) : FileNode :=
  .mk ⟨⟨true⟩, ⟨collapsed, false⟩⟩ children

/-- A box whose inner rectangle has the given height. -/
def boxOfHeight (h : Int) : TviewBox :=
  ⟨0, 0, 80, h⟩

/-- The two indexes of a state. -/
def TreeView.indexes (t : TreeView) : Int × Int :=
  (t.treeIndex, t.bufferIndexLowerBound)

/-- An expanded root directory holding two files: three visible nodes. -/
def twoFiles : TreeModel :=
  ⟨.dir false [.file, .file]⟩

/-- The selection on the first file of `twoFiles`, the last row of a viewport of height 2. -/
def onLastRow : TreeView :=
  { NewTreeView (boxOfHeight 2) twoFiles with treeIndex := 1 }

/-- The selection past the last node of `twoFiles`. -/
def pastTheEnd : TreeView :=
  { NewTreeView (boxOfHeight 2) twoFiles with treeIndex := 3, bufferIndexLowerBound := 2 }

/-- A collapsed root directory holding one file. -/
def collapsedRoot : TreeModel :=
  ⟨.dir true [.file]⟩

/-- The initial state on `twoFiles` with a frame of height 1. -/
def startHeightOne : TreeView :=
  NewTreeView (boxOfHeight 1) twoFiles

/-- The initial state on `twoFiles` with a frame of height 2. -/
def startHeightTwo : TreeView :=
  NewTreeView (boxOfHeight 2) twoFiles

/-- An expanded root holding an expanded directory of two files, and a file. -/
def nestedDir : TreeModel :=
  ⟨.dir false [.dir false [.file, .file], .file]⟩

/-- The selection on the inner directory of `nestedDir`. -/
def onNestedDir : TreeView :=
  { NewTreeView (boxOfHeight 2) nestedDir with treeIndex := 1 }

/-- The pointer to the inner directory of `nestedDir`. -/
def nestedDirRef : NodeRef :=
  .mk [0] (some (.mk [] none ⟨⟨true⟩, ⟨false, false⟩⟩ [.dir false [.file, .file], .file]))
    ⟨⟨true⟩, ⟨false, false⟩⟩ [.file, .file]

/-! ## The scenario of the specification -/

/-- The path of the node `getAbsPositionNode` returns, `none` when it returns no node or
fails. -/
def TreeView.selectedPath (t : TreeView) : Option (List Nat) :=
  match t.getAbsPositionNode with
  | .ok (some node) => some node.Path
  | _ => none

/-- The tree of the scenario: the root holds A, a collapsed directory of two files, and the
file B. -/
def scenarioTree : TreeModel :=
  ⟨.dir false [.dir true [.file, .file], .file]⟩

/-- The initial state of the scenario, frame height 2. -/
def scenarioStart : TreeView :=
  NewTreeView (boxOfHeight 2) scenarioTree

/-- The tree of the scenario with A expanded. -/
def scenarioExpanded : TreeModel :=
  ⟨.dir false [.dir false [.file, .file], .file]⟩

/-- The state of the scenario after keyDown. -/
def scenarioOnA : TreeView :=
  { scenarioStart with treeIndex := 1 }

/-- The state of the scenario after keyDown, keyRight. -/
def scenarioInA : TreeView :=
  { scenarioStart with tree := scenarioExpanded, treeIndex := 2, bufferIndexLowerBound := 1 }

/-- The state of the scenario after keyDown, keyRight, keyLeft. -/
def scenarioBackOnA : TreeView :=
  { scenarioInA with treeIndex := 1 }

/-- The state of the scenario after keyDown, keyRight, keyLeft, keyUp. -/
def scenarioOnRoot : TreeView :=
  { scenarioInA with treeIndex := 0, bufferIndexLowerBound := 0 }

/-- The pointer to the root of `nestedDir`, the parent of its inner directory. -/
def nestedRootRef : NodeRef :=
  .mk [] none ⟨⟨true⟩, ⟨false, false⟩⟩ [.dir false [.file, .file], .file]

/-- The position, among the children of a node, of the first child that is not hidden. -/
def firstShown : List FileNode → Option Nat
  | [] => none
  | c :: cs => if c.Data.ViewInfo.Hidden then (firstShown cs).map (· + 1) else some 0

mutual
/-- The children of the node at a path, read through the tree. -/
def FileNode.childrenAt : List Nat → FileNode → Option (List FileNode)
  | [], .mk _ cs => some cs
  | i :: p, .mk _ cs => childrenAtList i p cs
/-- The children of the node at a path below the `i`-th node of a list of children. -/
def childrenAtList : Nat → List Nat → List FileNode → Option (List FileNode)
  | _, _, [] => none
  | 0, p, c :: _ => c.childrenAt p
  | i + 1, p, _ :: cs => childrenAtList i p cs
end

/-- A hidden file. -/
def FileNode.hiddenFile : FileNode :=
  .mk ⟨⟨false⟩, ⟨false, true⟩⟩ []

/-- A root holding a collapsed directory whose first child is hidden and whose second is
not. -/
def hiddenFirstChild : TreeModel :=
  ⟨.dir false [.dir true [.hiddenFile, .file]]⟩

/-- The selection on the directory of `hiddenFirstChild`. -/
def onHiddenFirstChild : TreeView :=
  { NewTreeView (boxOfHeight 2) hiddenFirstChild with treeIndex := 1 }

/-- The pointer to A, the collapsed directory of `scenarioTree`. -/
def scenarioARef : NodeRef :=
  .mk [0] (some (.mk [] none ⟨⟨true⟩, ⟨false, false⟩⟩ [.dir true [.file, .file], .file]))
    ⟨⟨true⟩, ⟨true, false⟩⟩ [.file, .file]

/-! ## Node resolution over any tree model -/

/-- The method `VisitDepthParentFirst` of a tree model behind the `TreeModel` interface, as
node resolution calls it: with the visitor and evaluator of `getAbsPositionNode` and the
initial values of the captured `dfsCounter` and `node`. -/
abbrev ResolveTraversal :=
  Visitor (Int × Option NodeRef) → VisitEvaluator → Int × Option NodeRef →
    Except Panic (VisitResult TreeModel (Int × Option NodeRef))

/-- The method `TreeView.getAbsPositionNode` over any tree model: the traversal method of the
model is a parameter. An error of the traversal is logged and the node found so far is
returned. -/
def getAbsPositionNodeWith (visit : ResolveTraversal) (treeIndex : Int) :
    Except Panic (Option NodeRef) :=
  match visit (getAbsPositionNode.visitor treeIndex) getAbsPositionNode.evaluator (0, none) with
  | .error p => .error p
  | .ok r => .ok r.state.2

/-- The method `TreeView.collapseDir` over any tree model. -/
def TreeView.collapseDirWith (t : TreeView) (visit : ResolveTraversal) :
    Except Panic (TreeView × Bool) :=
  match getAbsPositionNodeWith visit t.treeIndex with
  | .error p => .error p
  | .ok none => .ok (t, false)
  | .ok (some node) =>
    if node.Data.FileInfo.IsDir then
      .ok ({ t with tree := t.tree.setCollapsed node (!node.Data.ViewInfo.Collapsed) }, true)
    else
      .ok (t, false)

/-- The method `TreeView.keyRight` over any tree model. -/
def TreeView.keyRightWith (t : TreeView) (visit : ResolveTraversal) :
    Except Panic (TreeView × Bool) :=
  match getAbsPositionNodeWith visit t.treeIndex with
  | .error p => .error p
  | .ok none => .ok (t, false)
  | .ok (some node) =>
    let (_, _, _, height) := t.Box.GetInnerRect
    if !node.Data.FileInfo.IsDir then
      .ok (t, false)
    else if node.Children.length == 0 then
      .ok (t, false)
    else
      let tree := if node.Data.ViewInfo.Collapsed then t.tree.setCollapsed node false else t.tree
      let treeIndex := t.treeIndex + 1
      let bufferIndexLowerBound :=
        if (treeIndex - t.bufferIndexLowerBound) >= height then t.bufferIndexLowerBound + 1
        else t.bufferIndexLowerBound
      .ok ({ t with tree := tree, treeIndex := treeIndex,
                    bufferIndexLowerBound := bufferIndexLowerBound }, true)

/-- Modelled from the spec: a "traversal error (the external model's visitor/evaluator reports
failure, e.g. structural inconsistency)": the walk of a tree model that finds the retained
node number `failAt` inconsistent. It has invoked the visitor on the retained nodes before that
one, and reports `cause` there. -/
def TreeModel.VisitDepthParentFirstFailing {σ : Type} (tree : TreeModel) (failAt : Nat)
    (cause : Error) (visitor : Visitor σ) (evaluator : VisitEvaluator) (s : σ) :
    Except Panic (VisitResult TreeModel σ) :=
  match tree.VisitDepthParentFirst
      (fun n (st : Nat × σ) =>
        if st.1 == failAt then ⟨n.Data, st, some cause⟩
        else
          let step := visitor n st.2
          ⟨step.Data, (st.1 + 1, step.state), step.err⟩)
      evaluator (0, s) with
  | .error p => .error p
  | .ok r => .ok ⟨r.tree, r.state.2, r.err⟩

/-- The error of the failing walks below. -/
def inconsistency : Error :=
  ⟨"inconsistent tree"⟩

/-! ## Setup and the input handler -/

/-- Modelled from the spec: the key of a key event (Go: `event.Key()`); the handler tells the
four arrow keys from all others. -/
inductive Key where
  | KeyUp
  | KeyDown
  | KeyRight
  | KeyLeft
  | other (code : Nat)
deriving DecidableEq, Repr

/-- Modelled from the spec: a key event of the terminal library. -/
structure EventKey where
  Key : Dive.Key
deriving DecidableEq, Repr

/-- Modelled from the spec: a resolved key binding, with `binding.match(event) -> bool`. -/
structure KeyBinding where
  Match : EventKey → Bool

/-- Modelled from the spec: the key-binding configuration,
`getKeyBinding(name) -> (binding, error)`. -/
structure KeyBindingConfig where
  GetKeyBinding : String → Except Error KeyBinding

/-- Modelled from the spec: the kinds of file a visibility toggle names. -/
inductive DiffType where
  | Unmodified
  | Modified
  | Added
  | Removed
deriving DecidableEq, Repr

/-- Modelled from the spec: `setLayerIndex(int) -> bool` and `toggleHiddenFileType(kind) ->
bool`, the "delegated filter/state operations" of the tree model, taken as parameters. -/
structure TreeModelMethods where
  SetLayerIndex : TreeModel → Int → TreeModel × Bool
  ToggleHiddenFileType : TreeModel → DiffType → TreeModel × Bool

/-- The type `keyAction`, a `func() bool` closed over the tree view: the view is passed in and
returned. -/
abbrev keyAction := TreeView → Except Panic (TreeView × Bool)

/-- The map `bindingSettings` of `Setup`, its entries in the order of the source. -/
def Setup.bindingSettings (m : TreeModelMethods) : List (String × keyAction) :=
  [ ("keybinding.toggle-collapse-dir", fun t => t.collapseDir),
    ("keybinding.toggle-collapse-all-dir", fun t => t.collapseOrExpandAll),
    ("keybinding.toggle-filetree-attributes",
      fun t => .ok ({ t with showAttributes := !t.showAttributes }, true)),
    ("keybinding.toggle-added-files",
      fun t => .ok ({ t with tree := (m.ToggleHiddenFileType t.tree .Added).1 }, false)),
    ("keybinding.toggle-removed-files",
      fun t => .ok ({ t with tree := (m.ToggleHiddenFileType t.tree .Removed).1 },
        (m.ToggleHiddenFileType t.tree .Removed).2)),
    ("keybinding.toggle-modified-files",
      fun t => .ok ({ t with tree := (m.ToggleHiddenFileType t.tree .Modified).1 },
        (m.ToggleHiddenFileType t.tree .Modified).2)),
    ("keybinding.toggle-unmodified-files",
      fun t => .ok ({ t with tree := (m.ToggleHiddenFileType t.tree .Unmodified).1 },
        (m.ToggleHiddenFileType t.tree .Unmodified).2)),
    ("keybinding.page-up", fun t => .ok t.pageUp),
    ("keybinding.page-down", fun t => .ok t.pageDown) ]

/-- The nine names `Setup` resolves. -/
def Setup.bindingNames : List String :=
  [ "keybinding.toggle-collapse-dir", "keybinding.toggle-collapse-all-dir",
    "keybinding.toggle-filetree-attributes", "keybinding.toggle-added-files",
    "keybinding.toggle-removed-files", "keybinding.toggle-modified-files",
    "keybinding.toggle-unmodified-files", "keybinding.page-up", "keybinding.page-down" ]

/-- The loop of `Setup` over the entries of `bindingSettings`, in the order the iteration of
the map yields them: the first name that does not resolve panics. -/
def Setup.resolve (config : KeyBindingConfig) :
    List (String × keyAction) → List KeyBinding → List keyAction →
      Except Panic (List KeyBinding × List keyAction)
  | [], bindingArray, actionArray => .ok (bindingArray, actionArray)
  | (keybinding, action) :: rest, bindingArray, actionArray =>
    match config.GetKeyBinding keybinding with
    | .error err => .error (.raised ⟨"setup error during " ++ keybinding ++ ": " ++ err.msg⟩)
    | .ok binding =>
      Setup.resolve config rest (bindingArray ++ [binding]) (actionArray ++ [action])

/-- The `switch event.Key()` of the input handler. -/
def Setup.arrowKeys (event : EventKey) (t : TreeView) : Except Panic TreeView :=
  match event.Key with
  | .KeyUp => t.keyUp.map Prod.fst
  | .KeyDown => .ok t.keyDown.1
  | .KeyRight => t.keyRight.map Prod.fst
  | .KeyLeft => t.keyLeft.map Prod.fst
  | .other _ => .ok t

/-- The loop of the input handler over `bindingArray`, from index `idx` on. -/
def Setup.dispatch (actionArray : List keyAction) (event : EventKey) :
    Nat → List KeyBinding → TreeView → Except Panic TreeView
  | _, [], t => .ok t
  | idx, binding :: rest, t =>
    if binding.Match event then
      match actionArray[idx]? with
      | none => .error (.raised ⟨"runtime error: index out of range"⟩)
      | some action =>
        match action t with
        | .error p => .error p
        | .ok r => Setup.dispatch actionArray event (idx + 1) rest r.1
    else
      Setup.dispatch actionArray event (idx + 1) rest t

/-- The input handler `Setup` installs. -/
def Setup.inputHandler (bindingArray : List KeyBinding) (actionArray : List keyAction)
    (event : EventKey) (t : TreeView) : Except Panic TreeView :=
  match Setup.arrowKeys event t with
  | .error p => .error p
  | .ok t1 => Setup.dispatch actionArray event 0 bindingArray t1

/-- The method `TreeView.Setup`. Go leaves the order in which a map is iterated unspecified:
`iteration` is the order in which the entries of `bindingSettings` come. The result is the view
and the handler stored in its `inputHandler` field. -/
def TreeView.Setup (t : TreeView) (m : TreeModelMethods) (config : KeyBindingConfig)
    (iteration : List (String × keyAction)) :
    Except Panic (TreeView × (EventKey → TreeView → Except Panic TreeView)) :=
  let t0 := { t with tree := (m.SetLayerIndex t.tree 0).1 }
  match Setup.resolve config iteration [] [] with
  | .error p => .error p
  | .ok (bindingArray, actionArray) => .ok (t0, Setup.inputHandler bindingArray actionArray)

/-- The entries of an iteration with the bindings their names resolve to. -/
def Setup.bound (config : KeyBindingConfig) (iteration : List (String × keyAction)) :
    List (KeyBinding × keyAction) :=
  iteration.filterMap fun e =>
    match config.GetKeyBinding e.1 with
    | .ok b => some (b, e.2)
    | .error _ => none

/-- The actions of a list run one after the other, each on the view the one before left. -/
def runActions : List keyAction → TreeView → Except Panic TreeView
  | [], t => .ok t
  | a :: rest, t =>
    match a t with
    | .error p => .error p
    | .ok r => runActions rest r.1

/-- Tree-model methods that leave the tree alone. -/
def idleMethods : TreeModelMethods :=
  ⟨fun tree _ => (tree, false), fun tree _ => (tree, false)⟩

/-- A configuration that binds every name to the key with code 1. -/
def oneKeyConfig : KeyBindingConfig :=
  ⟨fun _ => .ok ⟨fun event => event.Key == .other 1⟩⟩

/-! ## Traversals as folds -/

theorem getAbsPositionNode_evaluator_eq : getAbsPositionNode.evaluator = visibleEvaluator := rfl

theorem keyLeft_evaluator_eq : keyLeft.evaluator = visibleEvaluator := rfl

@[simp] theorem nodeRef_Path_mk (p : List Nat) (q : Option NodeRef) (d : NodeData)
    (cs : List FileNode) : (NodeRef.mk p q d cs).Path = p := rfl

@[simp] theorem nodeRef_Parent_mk (p : List Nat) (q : Option NodeRef) (d : NodeData)
    (cs : List FileNode) : (NodeRef.mk p q d cs).Parent = q := rfl

@[simp] theorem nodeRef_Data_mk (p : List Nat) (q : Option NodeRef) (d : NodeData)
    (cs : List FileNode) : (NodeRef.mk p q d cs).Data = d := rfl

@[simp] theorem nodeRef_Children_mk (p : List Nat) (q : Option NodeRef) (d : NodeData)
    (cs : List FileNode) : (NodeRef.mk p q d cs).Children = cs := rfl

@[simp] theorem fileNode_Data_mk (d : NodeData) (cs : List FileNode) :
    (FileNode.mk d cs).Data = d := rfl

@[simp] theorem fileNode_Children_mk (d : NodeData) (cs : List FileNode) :
    (FileNode.mk d cs).Children = cs := rfl

theorem fileNode_mk_eta (n : FileNode) : FileNode.mk n.Data n.Children = n := by
  cases n; rfl

theorem visibleEvaluator_some (p : List Nat) (parent : NodeRef) (d : NodeData)
    (cs : List FileNode) :
    visibleEvaluator (.mk p (some parent) d cs)
      = .ok (!parent.Data.ViewInfo.Collapsed && !d.ViewInfo.Hidden) := rfl

mutual
theorem visitNode_readOnly {σ : Type} (V : Visitor σ) (f : NodeRef → σ → σ)
    (hV : ∀ r s, V r s = ⟨r.Data, f r s, none⟩) (path : List Nat)
    (parent : Option NodeRef) (s : σ) : ∀ n : FileNode,
    visitNode V visibleEvaluator path parent s n
      = .ok ⟨n, (retainedNode path parent n).foldl (fun s r => f r s) s, none⟩
  | .mk d cs => by
    have ih := visitChildren_readOnly V f hV path (.mk path parent d cs) 0
      (f (.mk path parent d cs) s) cs
    simp only [visitNode, retainedNode, hV, nodeRef_Data_mk, List.foldl_cons, ih]
theorem visitChildren_readOnly {σ : Type} (V : Visitor σ) (f : NodeRef → σ → σ)
    (hV : ∀ r s, V r s = ⟨r.Data, f r s, none⟩) (ppath : List Nat)
    (parent : NodeRef) (i : Nat) (s : σ) : ∀ cs : List FileNode,
    visitChildren V visibleEvaluator ppath parent i s cs
      = .ok ⟨cs, (retainedChildren ppath parent i cs).foldl (fun s r => f r s) s, none⟩
  | [] => by simp only [visitChildren, retainedChildren, List.foldl_nil]
  | c :: rest => by
    have ihc := visitNode_readOnly V f hV (ppath ++ [i]) (some parent) s c
    by_cases h : (!parent.Data.ViewInfo.Collapsed && !c.Data.ViewInfo.Hidden) = true
    · have ihr := visitChildren_readOnly V f hV ppath parent (i + 1)
        ((retainedNode (ppath ++ [i]) (some parent) c).foldl (fun s r => f r s) s) rest
      simp only [visitChildren, visibleEvaluator_some, h, ihc, ihr,
        retainedChildren, if_true, List.foldl_append]
    · have ihr := visitChildren_readOnly V f hV ppath parent (i + 1) s rest
      have h2 : (!parent.Data.ViewInfo.Collapsed && !c.Data.ViewInfo.Hidden) = false := by
        simpa using h
      simp only [visitChildren, visibleEvaluator_some, h2, ihr,
        retainedChildren, List.foldl_append, List.foldl_nil, Bool.false_eq_true, if_false,
        List.nil_append]
end

mutual
theorem visitNode_setAll (g : Bool) (path : List Nat) (parent : Option NodeRef) :
    ∀ n : FileNode,
    visitNode (collapseOrExpandAll.visitor g) collapseOrExpandAll.evaluator path parent () n
      = .ok ⟨n.setAllDirs g, (), none⟩
  | .mk d cs => by
    by_cases hd : d.FileInfo.IsDir = true
    · have ih := visitChildren_setAll g path (.mk path parent (d.setCollapsed g) cs) 0 cs
      simp only [visitNode, collapseOrExpandAll.visitor, nodeRef_Data_mk, hd, if_true, ih,
        FileNode.setAllDirs]
    · have ih := visitChildren_setAll g path (.mk path parent d cs) 0 cs
      simp only [visitNode, collapseOrExpandAll.visitor, nodeRef_Data_mk, hd, if_false, ih,
        FileNode.setAllDirs, Bool.false_eq_true]
theorem visitChildren_setAll (g : Bool) (ppath : List Nat) (parent : NodeRef) (i : Nat) :
    ∀ cs : List FileNode,
    visitChildren (collapseOrExpandAll.visitor g) collapseOrExpandAll.evaluator ppath parent i
        () cs
      = .ok ⟨setAllDirsList g cs, (), none⟩
  | [] => by simp only [visitChildren, setAllDirsList]
  | c :: rest => by
    have ihc := visitNode_setAll g (ppath ++ [i]) (some parent) c
    have ihr := visitChildren_setAll g ppath parent (i + 1) rest
    simp only [visitChildren, collapseOrExpandAll.evaluator, ihc, ihr, setAllDirsList]
end

theorem foldl_count (l : List NodeRef) (c : Int) :
    l.foldl (fun (s : Int) (_ : NodeRef) => s + 1) c = c + l.length := by
  induction l generalizing c with
  | nil => simp
  | cons a l ih => simp only [List.foldl_cons, ih, List.length_cons]; push_cast; ring

theorem visibleSize_eq_length (tree : TreeModel) :
    tree.VisibleSize = tree.visibleNodes.length := by
  unfold TreeModel.VisibleSize TreeModel.VisitDepthParentFirst TreeModel.visibleNodes
  rw [visitNode_readOnly _ (fun _ (s : Int) => s + 1) (fun _ _ => rfl)]
  simp only [foldl_count, zero_add]

/-- The node at a Go index of a list: none below zero and from the length on. -/
theorem foldl_select (idx : Int) (l : List NodeRef) : ∀ (c : Int) (acc : Option NodeRef),
    (l.foldl (fun (s : Int × Option NodeRef) r =>
        (s.1 + 1, if s.1 == idx then some r else s.2)) (c, acc)).2
      = if c ≤ idx ∧ idx < c + l.length then l[(idx - c).toNat]? else acc := by
  induction l with
  | nil =>
    intro c acc
    have h : ¬ (c ≤ idx ∧ idx < c + (([] : List NodeRef).length : Int)) := by
      simp only [List.length_nil]; push_cast; omega
    simp only [List.foldl_nil, if_neg h]
  | cons a l ih =>
    intro c acc
    simp only [List.foldl_cons, ih, List.length_cons]
    by_cases h1 : c = idx
    · subst h1
      have h2 : ¬ (c + 1 ≤ c ∧ c < c + 1 + (l.length : Int)) := by omega
      have h3 : c ≤ c ∧ c < c + ((l.length + 1 : Nat) : Int) := by
        constructor <;> push_cast <;> omega
      rw [if_neg h2, if_pos h3]
      simp
    · have hne : (c == idx) = false := by simpa using h1
      simp only [hne, Bool.false_eq_true, if_false]
      by_cases h2 : c + 1 ≤ idx ∧ idx < c + 1 + (l.length : Int)
      · have h3 : c ≤ idx ∧ idx < c + ((l.length + 1 : Nat) : Int) := by
          constructor <;> push_cast <;> omega
        rw [if_pos h2, if_pos h3]
        have h4 : (idx - c).toNat = (idx - (c + 1)).toNat + 1 := by omega
        rw [h4, List.getElem?_cons_succ]
      · have h3 : ¬ (c ≤ idx ∧ idx < c + ((l.length + 1 : Nat) : Int)) := by
          push_cast; omega
        rw [if_neg h2, if_neg h3]

theorem getAbsPositionNode_eq (t : TreeView) :
    t.getAbsPositionNode
      = .ok (if 0 ≤ t.treeIndex then t.tree.visibleNodes[t.treeIndex.toNat]? else none) := by
  unfold TreeView.getAbsPositionNode TreeModel.VisitDepthParentFirst TreeModel.visibleNodes
  rw [getAbsPositionNode_evaluator_eq,
    visitNode_readOnly (getAbsPositionNode.visitor t.treeIndex)
      (fun r s => (s.1 + 1, if s.1 == t.treeIndex then some r else s.2)) (fun _ _ => rfl)]
  simp only [foldl_select, zero_add, sub_zero]
  by_cases h : 0 ≤ t.treeIndex
  · by_cases h2 : t.treeIndex < ((retainedNode [] none t.tree.Root).length : Int)
    · simp [h, h2]
    · have : (retainedNode [] none t.tree.Root).length ≤ t.treeIndex.toNat := by omega
      simp [h, h2, List.getElem?_eq_none this]
  · simp [h]

theorem keyUp_eq (t : TreeView) :
    t.keyUp = if t.treeIndex ≤ 0 then .ok (t, false) else
      if t.treeIndex - 1 < t.tree.visibleNodes.length then
        .ok ({ t with
          treeIndex := t.treeIndex - 1
          bufferIndexLowerBound :=
            if t.treeIndex - 1 < t.bufferIndexLowerBound then t.bufferIndexLowerBound - 1
            else t.bufferIndexLowerBound }, true)
      else .error .nilPointerDereference := by
  unfold TreeView.keyUp
  by_cases h : t.treeIndex ≤ 0
  · simp only [h, if_true]
  · have h0 : 0 ≤ t.treeIndex - 1 := by omega
    simp only [h, if_false, getAbsPositionNode_eq, h0, if_true]
    by_cases hlt : t.treeIndex - 1 < t.tree.visibleNodes.length
    · have hlt2 : (t.treeIndex - 1).toNat < t.tree.visibleNodes.length := by omega
      simp only [hlt, if_true, List.getElem?_eq_getElem hlt2, pathThrough]
    · have hge : t.tree.visibleNodes.length ≤ (t.treeIndex - 1).toNat := by omega
      simp only [hlt, if_false, List.getElem?_eq_none hge, pathThrough]

/-- C7: pageDown sets treeIndex to min(i+h, N); when the new treeIndex is at least b+h it sets
bufferIndexLowerBound to min(new treeIndex, N-h+1) and otherwise leaves it equal to b; it
reports true and changes nothing else. -/
theorem pageDown_spec (t : TreeView) :
    t.pageDown.2 = true
    ∧ t.pageDown.1.treeIndex = min (t.treeIndex + t.Box.height) t.tree.VisibleSize
    ∧ t.pageDown.1.bufferIndexLowerBound
        = (if min (t.treeIndex + t.Box.height) t.tree.VisibleSize
              ≥ t.bufferIndexLowerBound + t.Box.height then
            min (min (t.treeIndex + t.Box.height) t.tree.VisibleSize)
              (t.tree.VisibleSize - t.Box.height + 1)
          else t.bufferIndexLowerBound)
    ∧ t.pageDown.1.tree = t.tree
    ∧ t.pageDown.1.Box = t.Box
    ∧ t.pageDown.1.globalCollapseAll = t.globalCollapseAll := by
  have hmin : ∀ a b : Int, intMin a b = min a b := by
    intro a b
    unfold intMin
    split <;> omega
  refine ⟨rfl, ?_, ?_, ?_, ?_, ?_⟩ <;>
    simp only [TreeView.pageDown, TreeView.bufferIndexUpperBound, TviewBox.GetInnerRect, hmin]
      <;> split <;> simp_all

/-- C8: keyDown with treeIndex at or beyond VisibleSize() reports false and returns the state
as it was, so repeating it changes nothing; keyUp with treeIndex at or below 0 reports false and
returns the state as it was. -/
theorem keyDown_keyUp_at_boundary (t : TreeView) :
    (t.tree.VisibleSize ≤ t.treeIndex →
        t.keyDown = (t, false) ∧ t.keyDown.1.keyDown = (t, false))
    ∧ (t.treeIndex ≤ 0 → t.keyUp = .ok (t, false)) := by
  constructor
  · intro h
    have h1 : t.keyDown = (t, false) := by
      simp only [TreeView.keyDown, TviewBox.GetInnerRect, ge_iff_le, h, if_true]
    rw [h1]
    exact ⟨rfl, h1⟩
  · intro h
    rw [keyUp_eq, if_pos h]

/-- C9: keyRight reports false and leaves the whole state (treeIndex, bufferIndexLowerBound and
the tree with every Collapsed flag) as it was when the selection resolves to no node, to a node
that is not a directory, or to a directory with zero children. -/
theorem keyRight_noop (t : TreeView)
    (h : t.getAbsPositionNode = .ok none
      ∨ ∃ node, t.getAbsPositionNode = .ok (some node)
          ∧ (node.Data.FileInfo.IsDir = false ∨ node.Children.length = 0)) :
    t.keyRight = .ok (t, false) := by
  rcases h with h | ⟨node, h, hn⟩
  · simp only [TreeView.keyRight, h]
  · rcases hn with hn | hn
    · simp [TreeView.keyRight, h, hn]
    · by_cases hd : node.Data.FileInfo.IsDir = true
      · simp [TreeView.keyRight, h, hn, hd]
      · simp [TreeView.keyRight, h, hd]

/-- C3, as stated, fails: with frame height 2, treeIndex 1 and bufferIndexLowerBound 0 on a tree
of three visible nodes, keyDown scrolls the viewport to 1 and keyUp leaves it there. -/
theorem keyDown_keyUp_viewport_not_restored :
    0 < onLastRow.treeIndex
    ∧ onLastRow.treeIndex < onLastRow.tree.VisibleSize
    ∧ onLastRow.bufferIndexLowerBound ≤ onLastRow.treeIndex
    ∧ onLastRow.treeIndex < onLastRow.bufferIndexLowerBound + onLastRow.Box.height
    ∧ 1 ≤ onLastRow.Box.height
    ∧ onLastRow.indexes = (1, 0)
    ∧ onLastRow.keyDown.1.indexes = (2, 1)
    ∧ (onLastRow.keyDown.1.keyUp.toOption.map fun r => r.1.indexes) = some (1, 1) := by
  decide

/-- C3, amended: from a state with 0 ≤ treeIndex < VisibleSize() and
bufferIndexLowerBound ≤ treeIndex < bufferIndexLowerBound + h, keyDown followed by keyUp
restores treeIndex and the tree; it restores bufferIndexLowerBound when the selection was not on
the last row of the viewport or h = 1, and otherwise leaves it one higher. -/
theorem keyDown_keyUp_restores (t : TreeView) (h0 : 0 ≤ t.treeIndex)
    (hN : t.treeIndex < t.tree.VisibleSize)
    (hb : t.bufferIndexLowerBound ≤ t.treeIndex)
    (hh : t.treeIndex < t.bufferIndexLowerBound + t.Box.height) :
    t.keyDown.1.keyUp
      = .ok ({ t with
          bufferIndexLowerBound :=
            if t.treeIndex + 1 < t.bufferIndexLowerBound + t.Box.height ∨ t.Box.height = 1
            then t.bufferIndexLowerBound else t.bufferIndexLowerBound + 1 }, true) := by
  have hd : t.keyDown = ({ t with
      treeIndex := t.treeIndex + 1
      bufferIndexLowerBound :=
        if t.treeIndex + 1 - t.bufferIndexLowerBound ≥ t.Box.height
        then t.bufferIndexLowerBound + 1 else t.bufferIndexLowerBound }, true) := by
    have : ¬ t.treeIndex ≥ t.tree.VisibleSize := by omega
    simp only [TreeView.keyDown, TviewBox.GetInnerRect, this, if_false]
  rw [hd, keyUp_eq]
  have h1 : ¬ (t.treeIndex + 1 ≤ 0) := by omega
  have h2 : t.treeIndex < (t.tree.visibleNodes.length : Int) := by
    rw [← visibleSize_eq_length]; exact hN
  simp only [h1, if_false, add_sub_cancel_right, h2, if_true]
  congr 2
  cases t with
  | mk box tree idx b g sa =>
    clear hd
    simp only at h0 hN hb hh h1 ⊢
    congr 1
    split_ifs <;> omega

theorem keyDown_keyUp_restores_witness :
    onLastRow.keyDown.1.keyUp = .ok ({ onLastRow with bufferIndexLowerBound := 1 }, true) :=
  keyDown_keyUp_restores onLastRow (by decide) (by decide) (by decide) (by decide)

theorem keyDown_keyUp_at_boundary_witness :
    (pastTheEnd.keyDown = (pastTheEnd, false) ∧ pastTheEnd.keyDown.1.keyDown = (pastTheEnd, false))
    ∧ (NewTreeView (boxOfHeight 2) twoFiles).keyUp
        = .ok (NewTreeView (boxOfHeight 2) twoFiles, false) :=
  ⟨(keyDown_keyUp_at_boundary pastTheEnd).1 (by decide),
    (keyDown_keyUp_at_boundary (NewTreeView (boxOfHeight 2) twoFiles)).2 (by decide)⟩

theorem keyRight_noop_witness : onLastRow.keyRight = .ok (onLastRow, false) :=
  keyRight_noop onLastRow (Or.inr ⟨.mk [0] (some (.mk [] none ⟨⟨true⟩, ⟨false, false⟩⟩
    [.file, .file])) ⟨⟨false⟩, ⟨false, false⟩⟩ [], rfl, Or.inl rfl⟩)

theorem collapseOrExpandAll_eq (t : TreeView) :
    t.collapseOrExpandAll
      = .ok ({ t with
          tree := ⟨t.tree.Root.setAllDirs t.globalCollapseAll⟩
          globalCollapseAll := !t.globalCollapseAll }, true) := by
  simp only [TreeView.collapseOrExpandAll, TreeModel.VisitDepthParentFirst, visitNode_setAll]

mutual
theorem setAllDirs_setAllDirs (v w : Bool) : ∀ n : FileNode,
    (n.setAllDirs w).setAllDirs v = n.setAllDirs v
  | .mk d cs => by
    have ih := setAllDirsList_setAllDirsList v w cs
    by_cases hd : d.FileInfo.IsDir = true
    · simp [FileNode.setAllDirs, hd, ih, NodeData.setCollapsed]
    · simp [FileNode.setAllDirs, hd, ih]
theorem setAllDirsList_setAllDirsList (v w : Bool) : ∀ cs : List FileNode,
    setAllDirsList v (setAllDirsList w cs) = setAllDirsList v cs
  | [] => by simp [setAllDirsList]
  | c :: cs => by
    simp [setAllDirsList, setAllDirs_setAllDirs v w c, setAllDirsList_setAllDirsList v w cs]
end

mutual
theorem dirFlags_setAllDirs (v : Bool) : ∀ n : FileNode,
    dirFlags (n.setAllDirs v) = List.replicate (dirFlags n).length v
  | .mk d cs => by
    have ih := dirFlagsList_setAllDirsList v cs
    by_cases hd : d.FileInfo.IsDir = true
    · have hd2 : (d.setCollapsed v).FileInfo.IsDir = true := hd
      have hv : (d.setCollapsed v).ViewInfo.Collapsed = v := rfl
      simp only [FileNode.setAllDirs, dirFlags, hd, hd2, hv, if_true, ih, List.singleton_append,
        List.length_cons, List.replicate_succ]
    · simp only [FileNode.setAllDirs, dirFlags, hd, Bool.false_eq_true, if_false, ih,
        List.nil_append]
theorem dirFlagsList_setAllDirsList (v : Bool) : ∀ cs : List FileNode,
    dirFlagsList (setAllDirsList v cs) = List.replicate (dirFlagsList cs).length v
  | [] => by simp [setAllDirsList, dirFlagsList]
  | c :: cs => by
    simp only [setAllDirsList, dirFlagsList, dirFlags_setAllDirs v c,
      dirFlagsList_setAllDirsList v cs, List.length_append, List.replicate_add]
end

/-- C4, as stated, fails: on a collapsed root directory with globalCollapseAll = true, two
calls of collapseOrExpandAll leave the root expanded. -/
theorem collapseOrExpandAll_twice_not_restored :
    (NewTreeView (boxOfHeight 2) collapsedRoot).globalCollapseAll = true
    ∧ dirFlags collapsedRoot.Root = [true]
    ∧ (((NewTreeView (boxOfHeight 2) collapsedRoot).collapseOrExpandAll.bind
          fun r => r.1.collapseOrExpandAll).toOption.map fun r => dirFlags r.1.tree.Root)
        = some [false] := by
  decide

/-- C4, amended: two calls of collapseOrExpandAll in succession both report true, restore
globalCollapseAll and leave the two indexes alone, and leave every directory node's Collapsed
flag equal to the negation of the value globalCollapseAll had before the first call; the flags
are what they were before the first call exactly when every directory already had that flag. -/
theorem collapseOrExpandAll_twice (t : TreeView) :
    ∃ t1 t2, t.collapseOrExpandAll = .ok (t1, true)
      ∧ t1.collapseOrExpandAll = .ok (t2, true)
      ∧ t2.globalCollapseAll = t.globalCollapseAll
      ∧ t2.treeIndex = t.treeIndex
      ∧ t2.bufferIndexLowerBound = t.bufferIndexLowerBound
      ∧ dirFlags t2.tree.Root
          = List.replicate (dirFlags t.tree.Root).length (!t.globalCollapseAll)
      ∧ (dirFlags t2.tree.Root = dirFlags t.tree.Root
          ↔ ∀ f ∈ dirFlags t.tree.Root, f = !t.globalCollapseAll) := by
  refine ⟨_, _, collapseOrExpandAll_eq t, collapseOrExpandAll_eq _, ?_, rfl, rfl, ?_, ?_⟩
  · simp
  · simp only [setAllDirs_setAllDirs, dirFlags_setAllDirs]
  · simp only [setAllDirs_setAllDirs, dirFlags_setAllDirs]
    constructor
    · intro h f hf
      rw [← h] at hf
      exact List.eq_of_mem_replicate hf
    · intro h
      exact (List.eq_replicate_iff.2 ⟨rfl, h⟩).symm

theorem shownInTree_child (p : List Nat) (parent : NodeRef) (d : NodeData)
    (cs : List FileNode) :
    shownInTree (.mk p (some parent) d cs)
      = ((!parent.Data.ViewInfo.Collapsed && !d.ViewInfo.Hidden) && shownInTree parent) := by
  cases parent with
  | mk pp ppar pd pcs =>
    cases ppar with
    | none =>
      simp only [shownInTree, NodeRef.ancestors, nodeRef_Data_mk, nodeRef_Parent_mk,
        List.all_cons, List.all_nil, Option.isNone_none, Option.isNone_some, Bool.true_or,
        Bool.false_or, Bool.and_true]
      cases pd.ViewInfo.Collapsed <;> cases d.ViewInfo.Hidden <;> rfl
    | some g =>
      simp only [shownInTree, NodeRef.ancestors, nodeRef_Data_mk, nodeRef_Parent_mk,
        List.all_cons, Option.isNone_some, Bool.false_or]
      cases pd.ViewInfo.Collapsed <;> cases d.ViewInfo.Hidden <;>
        cases pd.ViewInfo.Hidden <;> simp

mutual
theorem filter_allNodes (path : List Nat) (parent : Option NodeRef) : ∀ n : FileNode,
    (allNodes path parent n).filter shownInTree
      = if shownInTree (.mk path parent n.Data n.Children) then retainedNode path parent n
        else []
  | .mk d cs => by
    have ih := filter_allNodesList path (.mk path parent d cs) 0 cs
    by_cases h : shownInTree (.mk path parent d cs) = true
    · simp only [allNodes, retainedNode, List.filter_cons, h, if_true, ih, fileNode_Data_mk,
        fileNode_Children_mk]
    · simp only [allNodes, List.filter_cons, h, if_false, ih, fileNode_Data_mk,
        fileNode_Children_mk, Bool.false_eq_true]
theorem filter_allNodesList (ppath : List Nat) (parent : NodeRef) (i : Nat) :
    ∀ cs : List FileNode,
    (allNodesList ppath parent i cs).filter shownInTree
      = if shownInTree parent then retainedChildren ppath parent i cs else []
  | [] => by simp [allNodesList, retainedChildren]
  | c :: rest => by
    have ihc := filter_allNodes (ppath ++ [i]) (some parent) c
    have ihr := filter_allNodesList ppath parent (i + 1) rest
    simp only [allNodesList, retainedChildren, List.filter_append, ihc, ihr,
      shownInTree_child]
    by_cases hp : shownInTree parent = true
    · simp only [hp, Bool.and_true, if_true]
    · simp only [hp, Bool.and_false, Bool.false_eq_true, if_false, List.append_nil]
end

mutual
theorem retainedNode_paths (pre : List Nat) (parent : Option NodeRef) : ∀ n : FileNode,
    (retainedNode pre parent n).map NodeRef.Path = (shownPaths n).map (pre ++ ·)
  | .mk d cs => by
    have ih := retainedChildren_paths pre (.mk pre parent d cs) 0 cs
    simp only [retainedNode, shownPaths, List.map_cons, nodeRef_Path_mk, ih, nodeRef_Data_mk,
      List.append_nil]
theorem retainedChildren_paths (ppath : List Nat) (parent : NodeRef) (i : Nat) :
    ∀ cs : List FileNode,
    (retainedChildren ppath parent i cs).map NodeRef.Path
      = (shownPathsList parent.Data.ViewInfo.Collapsed i cs).map (ppath ++ ·)
  | [] => by simp only [retainedChildren, shownPathsList, List.map_nil]
  | c :: rest => by
    have ihc := retainedNode_paths (ppath ++ [i]) (some parent) c
    have ihr := retainedChildren_paths ppath parent (i + 1) rest
    simp only [retainedChildren, shownPathsList, List.map_append, ihr]
    congr 1
    split
    · simp only [ihc, List.map_map]
      apply List.map_congr_left
      intro q _
      simp
    · rfl
end

theorem visibleNodes_paths (tree : TreeModel) :
    tree.visibleNodes.map NodeRef.Path = shownPaths tree.Root := by
  unfold TreeModel.visibleNodes
  rw [retainedNode_paths]
  simp

theorem visibleNodes_length (tree : TreeModel) :
    tree.visibleNodes.length = (shownPaths tree.Root).length := by
  rw [← visibleNodes_paths, List.length_map]

theorem shownPathsList_head (pc : Bool) : ∀ (cs : List FileNode) (i : Nat) (q : List Nat),
    q ∈ shownPathsList pc i cs → ∃ h t, q = h :: t ∧ i ≤ h := by
  intro cs
  induction cs with
  | nil => intro i q hq; simp [shownPathsList] at hq
  | cons c rest ih =>
    intro i q hq
    simp only [shownPathsList, List.mem_append] at hq
    rcases hq with hx | hy
    · split at hx
      · rcases List.mem_map.1 hx with ⟨t, _, rfl⟩
        exact ⟨i, t, rfl, le_refl i⟩
      · simp at hx
    · rcases ih (i + 1) q hy with ⟨h, t, rfl, hle⟩
      exact ⟨h, t, rfl, by omega⟩

theorem shownPathsList_head_at (pc : Bool) (cs : List FileNode) (i k : Nat) (q : List Nat)
    (hq : (shownPathsList pc i cs)[k]? = some q) : ∃ h t, q = h :: t ∧ i ≤ h :=
  shownPathsList_head pc cs i q (List.getElem?_mem hq)

theorem shownPathsList_collapsed : ∀ (cs : List FileNode) (i : Nat),
    shownPathsList true i cs = [] := by
  intro cs
  induction cs with
  | nil => intro i; simp [shownPathsList]
  | cons c rest ih => intro i; simp [shownPathsList, ih]

theorem setCollapsedAt_Data_Hidden (v : Bool) : ∀ (p : List Nat) (n : FileNode),
    (n.setCollapsedAt v p).Data.ViewInfo.Hidden = n.Data.ViewInfo.Hidden
  | [], .mk d cs => by simp [FileNode.setCollapsedAt, NodeData.setCollapsed]
  | i :: p, .mk d cs => by simp [FileNode.setCollapsedAt]

theorem shownPathsList_cons (pc : Bool) (i : Nat) (c : FileNode) (rest : List FileNode) :
    shownPathsList pc i (c :: rest)
      = (if (!pc && !c.Data.ViewInfo.Hidden) = true then (shownPaths c).map (List.cons i)
          else [])
        ++ shownPathsList pc (i + 1) rest := by
  simp only [shownPathsList]

mutual
theorem shownPaths_store_at (v : Bool) : ∀ (n : FileNode) (p : List Nat) (k : Nat),
    (shownPaths n)[k]? = some p → (shownPaths (n.setCollapsedAt v p))[k]? = some p
  | .mk d cs, p, k => by
    intro h
    cases k with
    | zero =>
      simp only [shownPaths, List.getElem?_cons_zero, Option.some.injEq] at h
      subst h
      simp only [FileNode.setCollapsedAt, shownPaths, List.getElem?_cons_zero]
    | succ k =>
      simp only [shownPaths, List.getElem?_cons_succ] at h
      obtain ⟨hd, tl, rfl, _⟩ := shownPathsList_head_at _ _ _ _ _ h
      have ih := shownPathsList_store_at v cs d.ViewInfo.Collapsed 0 k hd tl h
      simp only [FileNode.setCollapsedAt, shownPaths, List.getElem?_cons_succ]
      simpa using ih
theorem shownPathsList_store_at (v : Bool) :
    ∀ (cs : List FileNode) (pc : Bool) (j k h : Nat) (q : List Nat),
    (shownPathsList pc j cs)[k]? = some (h :: q) →
    (shownPathsList pc j (setCollapsedAtList v (h - j) q cs))[k]? = some (h :: q)
  | [], pc, j, k, h, q => by
    intro hk
    simp [shownPathsList] at hk
  | c :: rest, pc, j, k, h, q => by
    intro hk
    rw [shownPathsList_cons] at hk
    by_cases hc : (!pc && !c.Data.ViewInfo.Hidden) = true
    · rw [if_pos hc] at hk
      by_cases hlt : k < ((shownPaths c).map (List.cons j)).length
      · rw [List.getElem?_append_left hlt, List.getElem?_map] at hk
        rcases Option.map_eq_some'.1 hk with ⟨q0, hq0, heq⟩
        simp only [List.cons.injEq] at heq
        obtain ⟨rfl, rfl⟩ := heq
        have ih := shownPaths_store_at v c q0 k hq0
        have hc2 : (!pc && !(c.setCollapsedAt v q0).Data.ViewInfo.Hidden) = true := by
          rw [setCollapsedAt_Data_Hidden]; exact hc
        have hx : ((shownPaths (c.setCollapsedAt v q0)).map (List.cons j))[k]?
            = some (j :: q0) := by
          rw [List.getElem?_map, ih]; rfl
        have hlen : k < ((shownPaths (c.setCollapsedAt v q0)).map (List.cons j)).length :=
          (List.getElem?_eq_some.1 hx).1
        simp only [Nat.sub_self, setCollapsedAtList]
        rw [shownPathsList_cons, if_pos hc2, List.getElem?_append_left hlen, hx]
      · rw [List.getElem?_append_right (not_lt.1 hlt)] at hk
        obtain ⟨h2, t2, heq, hle⟩ := shownPathsList_head_at _ _ _ _ _ hk
        simp only [List.cons.injEq] at heq
        obtain ⟨rfl, rfl⟩ := heq
        have ih := shownPathsList_store_at v rest pc (j + 1) _ h q hk
        have hsub : h - j = (h - (j + 1)) + 1 := by omega
        rw [hsub]
        simp only [setCollapsedAtList]
        rw [shownPathsList_cons, if_pos hc, List.getElem?_append_right (not_lt.1 hlt)]
        exact ih
    · rw [if_neg hc, List.nil_append] at hk
      obtain ⟨h2, t2, heq, hle⟩ := shownPathsList_head_at _ _ _ _ _ hk
      simp only [List.cons.injEq] at heq
      obtain ⟨rfl, rfl⟩ := heq
      have ih := shownPathsList_store_at v rest pc (j + 1) _ h q hk
      have hsub : h - j = (h - (j + 1)) + 1 := by omega
      rw [hsub]
      simp only [setCollapsedAtList]
      rw [shownPathsList_cons, if_neg hc, List.nil_append]
      exact ih
end

theorem visibleNodes_path_at (tree : TreeModel) (k : Nat) (node : NodeRef)
    (h : tree.visibleNodes[k]? = some node) : (shownPaths tree.Root)[k]? = some node.Path := by
  rw [← visibleNodes_paths, List.getElem?_map, h]
  rfl

theorem visibleNodes_setCollapsed_at (tree : TreeModel) (k : Nat) (node : NodeRef) (v : Bool)
    (h : tree.visibleNodes[k]? = some node) :
    ((tree.setCollapsed node v).visibleNodes[k]?).map NodeRef.Path = some node.Path := by
  have h1 := shownPaths_store_at v tree.Root node.Path k (visibleNodes_path_at tree k node h)
  rw [← List.getElem?_map, visibleNodes_paths]
  exact h1

theorem visibleNodes_setCollapsed_length (tree : TreeModel) (k : Nat) (node : NodeRef)
    (v : Bool) (h : tree.visibleNodes[k]? = some node) :
    k < (tree.setCollapsed node v).visibleNodes.length := by
  have h1 := visibleNodes_setCollapsed_at tree k node v h
  rcases Option.map_eq_some'.1 h1 with ⟨r, hr, _⟩
  exact (List.getElem?_eq_some.1 hr).1

theorem below_append_singleton : ∀ (p : List Nat) (i : Nat), below p (p ++ [i]) = true
  | [], i => rfl
  | j :: p, i => by simp [below, below_append_singleton p i]

mutual
theorem shownPaths_below_lt : ∀ (n : FileNode) (j k : Nat) (q r : List Nat),
    (shownPaths n)[j]? = some q → (shownPaths n)[k]? = some r → below q r = true → j < k
  | .mk d cs, j, k, q, r => by
    intro hj hk hb
    cases k with
    | zero =>
      simp only [shownPaths, List.getElem?_cons_zero, Option.some.injEq] at hk
      subst hk
      cases q <;> simp [below] at hb
    | succ k =>
      cases j with
      | zero => omega
      | succ j =>
        simp only [shownPaths, List.getElem?_cons_succ] at hj hk
        have := shownPathsList_below_lt cs d.ViewInfo.Collapsed 0 j k q r hj hk hb
        omega
theorem shownPathsList_below_lt : ∀ (cs : List FileNode) (pc : Bool) (o j k : Nat)
    (q r : List Nat),
    (shownPathsList pc o cs)[j]? = some q → (shownPathsList pc o cs)[k]? = some r →
    below q r = true → j < k
  | [], pc, o, j, k, q, r => by
    intro hj
    simp [shownPathsList] at hj
  | c :: rest, pc, o, j, k, q, r => by
    intro hj hk hb
    rw [shownPathsList_cons] at hj hk
    by_cases hc : (!pc && !c.Data.ViewInfo.Hidden) = true
    · rw [if_pos hc] at hj hk
      by_cases hjl : j < ((shownPaths c).map (List.cons o)).length
      · by_cases hkl : k < ((shownPaths c).map (List.cons o)).length
        · rw [List.getElem?_append_left hjl, List.getElem?_map] at hj
          rw [List.getElem?_append_left hkl, List.getElem?_map] at hk
          rcases Option.map_eq_some'.1 hj with ⟨q0, hq0, rfl⟩
          rcases Option.map_eq_some'.1 hk with ⟨r0, hr0, rfl⟩
          simp only [below, beq_self_eq_true, Bool.true_and] at hb
          exact shownPaths_below_lt c j k q0 r0 hq0 hr0 hb
        · omega
      · rw [List.getElem?_append_right (not_lt.1 hjl)] at hj
        obtain ⟨h2, t2, rfl, hle⟩ := shownPathsList_head_at _ _ _ _ _ hj
        by_cases hkl : k < ((shownPaths c).map (List.cons o)).length
        · rw [List.getElem?_append_left hkl, List.getElem?_map] at hk
          rcases Option.map_eq_some'.1 hk with ⟨r0, hr0, rfl⟩
          simp only [below, Bool.and_eq_true, beq_iff_eq] at hb
          omega
        · rw [List.getElem?_append_right (not_lt.1 hkl)] at hk
          have := shownPathsList_below_lt rest pc (o + 1) _ _ _ r hj hk hb
          omega
    · rw [if_neg hc, List.nil_append] at hj hk
      exact shownPathsList_below_lt rest pc (o + 1) j k q r hj hk hb
end

mutual
theorem retainedNode_parent_path : ∀ (n : FileNode) (pre : List Nat) (parent : Option NodeRef),
    (∀ P, parent = some P → ∃ i, pre = P.Path ++ [i]) →
    ∀ r ∈ retainedNode pre parent n, ∀ P, r.Parent = some P → ∃ i, r.Path = P.Path ++ [i]
  | .mk d cs, pre, parent => by
    intro hp r hr P hP
    simp only [retainedNode, List.mem_cons] at hr
    rcases hr with rfl | hr
    · exact hp P hP
    · exact retainedChildren_parent_path cs pre (.mk pre parent d cs) 0 rfl r hr P hP
theorem retainedChildren_parent_path : ∀ (cs : List FileNode) (ppath : List Nat)
    (parent : NodeRef) (i : Nat), parent.Path = ppath →
    ∀ r ∈ retainedChildren ppath parent i cs, ∀ P, r.Parent = some P →
      ∃ i, r.Path = P.Path ++ [i]
  | [], ppath, parent, i => by
    intro _ r hr
    simp [retainedChildren] at hr
  | c :: rest, ppath, parent, i => by
    intro hpp r hr P hP
    simp only [retainedChildren, List.mem_append] at hr
    rcases hr with hr | hr
    · split at hr
      · refine retainedNode_parent_path c (ppath ++ [i]) (some parent) ?_ r hr P hP
        intro P2 hP2
        simp only [Option.some.injEq] at hP2
        subst hP2
        exact ⟨i, by rw [hpp]⟩
      · simp at hr
    · exact retainedChildren_parent_path rest ppath parent (i + 1) hpp r hr P hP
end

theorem visibleNodes_parent_path (tree : TreeModel) (r P : NodeRef)
    (hr : r ∈ tree.visibleNodes) (hP : r.Parent = some P) : ∃ i, r.Path = P.Path ++ [i] :=
  retainedNode_parent_path tree.Root [] none (by intro P h; cases h) r hr P hP

/-- The index `keyLeft` computes: the position of the last visible node with the parent's
path, 0 when there is none. -/
theorem foldl_keyLeft (pp : Option (List Nat)) (l : List NodeRef) : ∀ (c acc : Int),
    (l.foldl (fun (s : Int × Int) r =>
        (s.1 + 1, if pp == some r.Path then s.1 else s.2)) (c, acc)).2 = acc
    ∨ ∃ (j : Nat) (node : NodeRef), l[j]? = some node ∧ pp = some node.Path
        ∧ (l.foldl (fun (s : Int × Int) r =>
            (s.1 + 1, if pp == some r.Path then s.1 else s.2)) (c, acc)).2 = c + j := by
  induction l with
  | nil => intro c acc; left; rfl
  | cons a l ih =>
    intro c acc
    simp only [List.foldl_cons]
    rcases ih (c + 1) (if pp == some a.Path then c else acc) with h | ⟨j, node, hj, hpp, h⟩
    · by_cases hm : pp = some a.Path
      · right
        refine ⟨0, a, List.getElem?_cons_zero, hm, ?_⟩
        rw [h]
        simp [hm]
      · left
        rw [h]
        simp [hm]
    · right
      refine ⟨j + 1, node, by simpa using hj, hpp, ?_⟩
      rw [h]
      push_cast
      ring

/-- The index computed by the traversal of `keyLeft`. -/
theorem keyLeft_eq (t : TreeView) :
    t.keyLeft = .ok
      (match (if 0 ≤ t.treeIndex then t.tree.visibleNodes[t.treeIndex.toNat]? else none) with
        | none => (t, true)
        | some currentNode =>
          ({ t with
              treeIndex := (t.tree.visibleNodes.foldl (fun (s : Int × Int) r =>
                (s.1 + 1, if pathOf currentNode.Parent == some r.Path then s.1 else s.2))
                (0, 0)).2
              bufferIndexLowerBound :=
                if (t.tree.visibleNodes.foldl (fun (s : Int × Int) r =>
                    (s.1 + 1, if pathOf currentNode.Parent == some r.Path then s.1 else s.2))
                    (0, 0)).2 < t.bufferIndexLowerBound
                then (t.tree.visibleNodes.foldl (fun (s : Int × Int) r =>
                    (s.1 + 1, if pathOf currentNode.Parent == some r.Path then s.1 else s.2))
                    (0, 0)).2
                else t.bufferIndexLowerBound }, true)) := by
  unfold TreeView.keyLeft
  rw [getAbsPositionNode_eq]
  cases hnode : (if 0 ≤ t.treeIndex then t.tree.visibleNodes[t.treeIndex.toNat]? else none) with
  | none => rfl
  | some cur =>
    simp only [TreeModel.VisitDepthParentFirst, keyLeft_evaluator_eq]
    rw [visitNode_readOnly (keyLeft.visitor (pathOf cur.Parent))
      (fun r (s : Int × Int) => (s.1 + 1, if pathOf cur.Parent == some r.Path then s.1 else s.2))
      (fun _ _ => rfl)]
    rfl

theorem getAbsPositionNode_selected (t : TreeView) : t.getAbsPositionNode = .ok t.selected :=
  getAbsPositionNode_eq t

theorem selected_some (t : TreeView) (node : NodeRef) (h : t.selected = some node) :
    0 ≤ t.treeIndex ∧ t.tree.visibleNodes[t.treeIndex.toNat]? = some node := by
  unfold TreeView.selected at h
  by_cases h0 : 0 ≤ t.treeIndex
  · rw [if_pos h0] at h; exact ⟨h0, h⟩
  · rw [if_neg h0] at h; cases h

theorem selected_lt (t : TreeView) (node : NodeRef) (h : t.selected = some node) :
    t.treeIndex < t.tree.VisibleSize := by
  obtain ⟨h0, h1⟩ := selected_some t node h
  have := (List.getElem?_eq_some.1 h1).1
  rw [visibleSize_eq_length]
  omega

theorem selected_store_lt (t : TreeView) (node : NodeRef) (v : Bool)
    (h : t.selected = some node) :
    t.treeIndex < (t.tree.setCollapsed node v).VisibleSize := by
  obtain ⟨h0, h1⟩ := selected_some t node h
  have := visibleNodes_setCollapsed_length t.tree _ node v h1
  rw [visibleSize_eq_length]
  omega

theorem VisibleSize_nonneg (tree : TreeModel) : 0 ≤ tree.VisibleSize := by
  rw [visibleSize_eq_length]
  omega

theorem keyDown_inv (h : Int) (t : TreeView) (hw : t.Bounded h) :
    ∃ t1, t.act .keyDown = .ok t1 ∧ t1.Bounded h ∧ (t.InRange → t1.InRange) := by
  refine ⟨t.keyDown.1, rfl, ?_⟩
  obtain ⟨rfl, hh, h0, hb, hlt⟩ := hw
  simp only [TreeView.keyDown, TviewBox.GetInnerRect, TreeView.Bounded, TreeView.InRange]
  split_ifs <;> dsimp only <;> refine ⟨⟨rfl, hh, ?_, ?_, ?_⟩, fun hr => ⟨?_, ?_⟩⟩ <;> omega

theorem keyUp_inv (h : Int) (t : TreeView) (hw : t.Bounded h) :
    (∀ t1, t.act .keyUp = .ok t1 → t1.Bounded h ∧ (t.InRange → t1.InRange))
    ∧ (t.InRange → ∃ t1, t.act .keyUp = .ok t1) := by
  obtain ⟨rfl, hh, h0, hb, hlt⟩ := hw
  have hlen := visibleSize_eq_length t.tree
  simp only [TreeView.act, keyUp_eq, TreeView.Bounded, TreeView.InRange]
  constructor
  · intro t1 h1
    split_ifs at h1 <;> simp only [Except.map, Except.ok.injEq, reduceCtorEq] at h1 <;>
      subst h1 <;> (try dsimp only) <;>
      refine ⟨⟨rfl, hh, ?_, ?_, ?_⟩, fun hr => ⟨?_, ?_⟩⟩ <;> omega
  · intro hr
    by_cases hz : t.treeIndex ≤ 0
    · rw [if_pos hz]; exact ⟨_, rfl⟩
    · have hlt2 : t.treeIndex - 1 < (t.tree.visibleNodes.length : Int) := by omega
      rw [if_neg hz, if_pos hlt2]; exact ⟨_, rfl⟩

theorem pageUp_inv (h : Int) (t : TreeView) (hw : t.Bounded h) :
    ∃ t1, t.act .pageUp = .ok t1 ∧ t1.Bounded h ∧ (t.InRange → t1.InRange) := by
  refine ⟨t.pageUp.1, rfl, ?_⟩
  obtain ⟨rfl, hh, h0, hb, hlt⟩ := hw
  simp only [TreeView.pageUp, TviewBox.GetInnerRect, TreeView.Bounded, TreeView.InRange, intMax]
  split_ifs <;> dsimp only <;> refine ⟨⟨rfl, hh, ?_, ?_, ?_⟩, fun hr => ⟨?_, ?_⟩⟩ <;> omega

theorem pageDown_inv (h : Int) (t : TreeView) (hw : t.Bounded h) :
    ∃ t1, t.act .pageDown = .ok t1 ∧ t1.Bounded h ∧ (t.InRange → t1.InRange) := by
  refine ⟨t.pageDown.1, rfl, ?_⟩
  obtain ⟨rfl, hh, h0, hb, hlt⟩ := hw
  have hN := VisibleSize_nonneg t.tree
  simp only [TreeView.pageDown, TreeView.bufferIndexUpperBound, TviewBox.GetInnerRect,
    TreeView.Bounded, TreeView.InRange, intMin]
  split_ifs <;> dsimp only <;> refine ⟨⟨rfl, hh, ?_, ?_, ?_⟩, fun hr => ⟨?_, ?_⟩⟩ <;> omega

theorem keyRight_inv (h : Int) (t : TreeView) (hw : t.Bounded h) :
    ∃ t1, t.act .keyRight = .ok t1 ∧ t1.Bounded h ∧ (t.InRange → t1.InRange) := by
  obtain ⟨rfl, hh, h0, hb, hlt⟩ := hw
  simp only [TreeView.act, TreeView.keyRight, getAbsPositionNode_selected,
    TviewBox.GetInnerRect]
  cases hsel : t.selected with
  | none => exact ⟨t, rfl, ⟨rfl, hh, h0, hb, hlt⟩, id⟩
  | some node =>
    have h1 := selected_lt t node hsel
    have h2 := selected_store_lt t node false hsel
    dsimp only
    split_ifs <;> refine ⟨_, rfl, ?_⟩ <;> simp only [TreeView.Bounded, TreeView.InRange] <;>
      refine ⟨⟨trivial, hh, ?_, ?_, ?_⟩, fun hr => ⟨?_, ?_⟩⟩ <;> omega

theorem collapseDir_inv (h : Int) (t : TreeView) (hw : t.Bounded h) :
    ∃ t1, t.act .collapseDir = .ok t1 ∧ t1.Bounded h ∧ (t.InRange → t1.InRange) := by
  obtain ⟨rfl, hh, h0, hb, hlt⟩ := hw
  simp only [TreeView.act, TreeView.collapseDir, getAbsPositionNode_selected]
  cases hsel : t.selected with
  | none => exact ⟨t, rfl, ⟨rfl, hh, h0, hb, hlt⟩, id⟩
  | some node =>
    have h1 := selected_lt t node hsel
    have h2 := selected_store_lt t node (!node.Data.ViewInfo.Collapsed) hsel
    dsimp only
    split_ifs <;> refine ⟨_, rfl, ?_⟩ <;> simp only [TreeView.Bounded, TreeView.InRange] <;>
      refine ⟨⟨trivial, hh, ?_, ?_, ?_⟩, fun hr => ⟨?_, ?_⟩⟩ <;> omega

theorem collapseOrExpandAll_inv (h : Int) (t : TreeView) (hw : t.Bounded h) :
    ∃ t1, t.act .collapseOrExpandAll = .ok t1 ∧ t1.Bounded h := by
  simp only [TreeView.act, collapseOrExpandAll_eq, Except.map]
  exact ⟨_, rfl, hw⟩

theorem keyLeft_index_le (t : TreeView) (cur : NodeRef) (hsel : t.selected = some cur) :
    0 ≤ (t.tree.visibleNodes.foldl (fun (s : Int × Int) r =>
          (s.1 + 1, if pathOf cur.Parent == some r.Path then s.1 else s.2)) (0, 0)).2
    ∧ (t.tree.visibleNodes.foldl (fun (s : Int × Int) r =>
          (s.1 + 1, if pathOf cur.Parent == some r.Path then s.1 else s.2)) (0, 0)).2
        ≤ t.treeIndex := by
  obtain ⟨h0, hcur⟩ := selected_some t cur hsel
  rcases foldl_keyLeft (pathOf cur.Parent) t.tree.visibleNodes 0 0 with h | ⟨j, node, hj, hpp, h⟩
  · rw [h]; exact ⟨le_refl 0, h0⟩
  · rw [h]
    cases hP : cur.Parent with
    | none => rw [hP] at hpp; cases hpp
    | some P =>
      rw [hP] at hpp
      simp only [pathOf, Option.map_some', Option.some.injEq] at hpp
      obtain ⟨i, hi⟩ := visibleNodes_parent_path t.tree cur P (List.getElem?_mem hcur) hP
      have hb : below node.Path cur.Path = true := by
        rw [hi, ← hpp]; exact below_append_singleton _ _
      have := shownPaths_below_lt t.tree.Root j t.treeIndex.toNat node.Path cur.Path
        (visibleNodes_path_at t.tree j node hj)
        (visibleNodes_path_at t.tree _ cur hcur) hb
      omega

theorem keyLeft_inv (h : Int) (t : TreeView) (hw : t.Bounded h) :
    ∃ t1, t.act .keyLeft = .ok t1 ∧ t1.Bounded h ∧ (t.InRange → t1.InRange) := by
  obtain ⟨rfl, hh, h0, hb, hlt⟩ := hw
  simp only [TreeView.act, keyLeft_eq, Except.map]
  refine ⟨_, rfl, ?_⟩
  cases hsel : t.selected with
  | none =>
    have : (if 0 ≤ t.treeIndex then t.tree.visibleNodes[t.treeIndex.toNat]? else none) = none :=
      hsel
    rw [this]
    exact ⟨⟨rfl, hh, h0, hb, hlt⟩, id⟩
  | some cur =>
    have : (if 0 ≤ t.treeIndex then t.tree.visibleNodes[t.treeIndex.toNat]? else none)
        = some cur := hsel
    rw [this]
    obtain ⟨hn0, hnle⟩ := keyLeft_index_le t cur hsel
    simp only [TreeView.Bounded, TreeView.InRange]
    split_ifs <;> refine ⟨⟨trivial, hh, ?_, ?_, ?_⟩, fun hr => ⟨?_, ?_⟩⟩ <;> omega

theorem act_inv_of_ok (h : Int) (t : TreeView) (a : Action) (c : Prop)
    (hex : ∃ t1, t.act a = .ok t1 ∧ t1.Bounded h ∧ (c → t.InRange → t1.InRange)) :
    (∀ t1, t.act a = .ok t1 → t1.Bounded h ∧ (c → t.InRange → t1.InRange))
    ∧ ∃ t1, t.act a = .ok t1 := by
  obtain ⟨t1, h1, h2, h3⟩ := hex
  refine ⟨fun t2 h4 => ?_, t1, h1⟩
  rw [h1] at h4
  cases h4
  exact ⟨h2, h3⟩

theorem act_inv (h : Int) (t : TreeView) (a : Action) (hw : t.Bounded h) :
    (∀ t1, t.act a = .ok t1 →
      t1.Bounded h ∧ (a ≠ .collapseOrExpandAll → t.InRange → t1.InRange))
    ∧ (a ≠ .keyUp ∨ t.InRange → ∃ t1, t.act a = .ok t1) := by
  cases a with
  | keyUp =>
    obtain ⟨h1, h2⟩ := keyUp_inv h t hw
    refine ⟨fun t1 h3 => ⟨(h1 t1 h3).1, fun _ => (h1 t1 h3).2⟩, fun hc => ?_⟩
    rcases hc with hc | hc
    · exact absurd rfl hc
    · exact h2 hc
  | keyDown =>
    obtain ⟨t1, h1, h2, h3⟩ := keyDown_inv h t hw
    obtain ⟨h4, h5⟩ := act_inv_of_ok h t .keyDown _ ⟨t1, h1, h2, fun _ => h3⟩
    exact ⟨h4, fun _ => h5⟩
  | keyLeft =>
    obtain ⟨t1, h1, h2, h3⟩ := keyLeft_inv h t hw
    obtain ⟨h4, h5⟩ := act_inv_of_ok h t .keyLeft _ ⟨t1, h1, h2, fun _ => h3⟩
    exact ⟨h4, fun _ => h5⟩
  | keyRight =>
    obtain ⟨t1, h1, h2, h3⟩ := keyRight_inv h t hw
    obtain ⟨h4, h5⟩ := act_inv_of_ok h t .keyRight _ ⟨t1, h1, h2, fun _ => h3⟩
    exact ⟨h4, fun _ => h5⟩
  | pageUp =>
    obtain ⟨t1, h1, h2, h3⟩ := pageUp_inv h t hw
    obtain ⟨h4, h5⟩ := act_inv_of_ok h t .pageUp _ ⟨t1, h1, h2, fun _ => h3⟩
    exact ⟨h4, fun _ => h5⟩
  | pageDown =>
    obtain ⟨t1, h1, h2, h3⟩ := pageDown_inv h t hw
    obtain ⟨h4, h5⟩ := act_inv_of_ok h t .pageDown _ ⟨t1, h1, h2, fun _ => h3⟩
    exact ⟨h4, fun _ => h5⟩
  | collapseDir =>
    obtain ⟨t1, h1, h2, h3⟩ := collapseDir_inv h t hw
    obtain ⟨h4, h5⟩ := act_inv_of_ok h t .collapseDir _ ⟨t1, h1, h2, fun _ => h3⟩
    exact ⟨h4, fun _ => h5⟩
  | collapseOrExpandAll =>
    obtain ⟨t1, h1, h2⟩ := collapseOrExpandAll_inv h t hw
    obtain ⟨h4, h5⟩ := act_inv_of_ok h t .collapseOrExpandAll _
      ⟨t1, h1, h2, fun (hne : Action.collapseOrExpandAll ≠ .collapseOrExpandAll) =>
        absurd rfl hne⟩
    exact ⟨h4, fun _ => h5⟩

theorem run_inv (h : Int) : ∀ (actions : List Action) (t : TreeView), t.Bounded h →
    (∀ t1, t.run actions = .ok t1 →
      t1.Bounded h ∧ (Action.collapseOrExpandAll ∉ actions → t.InRange → t1.InRange))
    ∧ (Action.keyUp ∉ actions ∨ (Action.collapseOrExpandAll ∉ actions ∧ t.InRange) →
        ∃ t1, t.run actions = .ok t1)
  | [], t, hw => ⟨fun t1 h1 => by cases h1; exact ⟨hw, fun _ hr => hr⟩, fun _ => ⟨t, rfl⟩⟩
  | a :: rest, t, hw => by
    obtain ⟨ha, htot⟩ := act_inv h t a hw
    constructor
    · intro t2 hrun
      simp only [TreeView.run] at hrun
      cases hact : t.act a with
      | error p => rw [hact] at hrun; cases hrun
      | ok t1 =>
        rw [hact] at hrun
        obtain ⟨hw1, hr1⟩ := ha t1 hact
        obtain ⟨hw2, hr2⟩ := (run_inv h rest t1 hw1).1 t2 hrun
        refine ⟨hw2, fun hno hr => ?_⟩
        have hne : a ≠ .collapseOrExpandAll := fun e => hno (e ▸ List.mem_cons_self _ _)
        exact hr2 (fun hm => hno (List.mem_cons_of_mem _ hm)) (hr1 hne hr)
    · intro hc
      have hc1 : a ≠ .keyUp ∨ t.InRange := by
        rcases hc with hc | hc
        · exact Or.inl fun e => hc (e ▸ List.mem_cons_self _ _)
        · exact Or.inr hc.2
      obtain ⟨t1, hact⟩ := htot hc1
      obtain ⟨hw1, hr1⟩ := ha t1 hact
      have hc2 : Action.keyUp ∉ rest ∨ (Action.collapseOrExpandAll ∉ rest ∧ t1.InRange) := by
        rcases hc with hc | hc
        · exact Or.inl fun hm => hc (List.mem_cons_of_mem _ hm)
        · have hne : a ≠ .collapseOrExpandAll := fun e => hc.1 (e ▸ List.mem_cons_self _ _)
          exact Or.inr ⟨fun hm => hc.1 (List.mem_cons_of_mem _ hm), hr1 hne hc.2⟩
      obtain ⟨t2, hrun⟩ := (run_inv h rest t1 hw1).2 hc2
      exact ⟨t2, by simp only [TreeView.run, hact, hrun]⟩

theorem NewTreeView_inv (box : TviewBox) (tree : TreeModel) (hh : 1 ≤ box.height) :
    (NewTreeView box tree).Bounded box.height ∧ (NewTreeView box tree).InRange := by
  have := VisibleSize_nonneg tree
  simp only [TreeView.Bounded, TreeView.InRange, NewTreeView]
  refine ⟨⟨trivial, hh, ?_, ?_, ?_⟩, ?_, ?_⟩ <;> omega

/-- C1, as stated, fails: with frame height 2 on an expanded root holding two files, two
keyDown and then collapseOrExpandAll leave treeIndex = 2 while only the collapsed root is
visible, VisibleSize() = 1; a keyUp from that state moves to index 1, where no node is, and
stops in a nil pointer dereference, so the sequence reaches no state. -/
theorem treeIndex_beyond_visible_after_collapseAll :
    1 ≤ (boxOfHeight 2).height
    ∧ ((startHeightTwo.run [.keyDown, .keyDown, .collapseOrExpandAll]).toOption.map
        fun t => (t.treeIndex, t.tree.VisibleSize)) = some (2, 1)
    ∧ panicOf (startHeightTwo.run [.keyDown, .keyDown, .collapseOrExpandAll, .keyUp])
        = some .nilPointerDereference := by
  decide

/-- C1, amended: at a fixed frame height h ≥ 1 and on any tree, in every state that a finite
sequence of the eight actions reaches from the initial state 0 ≤ treeIndex; a sequence that
holds no collapseOrExpandAll reaches a state, and in it treeIndex ≤ VisibleSize(), the number of
nodes the visibility-filtered parent-first traversal enumerates; a sequence that holds no keyUp
reaches a state. -/
theorem treeIndex_within_visible (box : TviewBox) (tree : TreeModel) (actions : List Action)
    (hh : 1 ≤ box.height) :
    (∀ t, (NewTreeView box tree).run actions = .ok t → 0 ≤ t.treeIndex)
    ∧ (Action.collapseOrExpandAll ∉ actions →
        ∃ t, (NewTreeView box tree).run actions = .ok t
          ∧ t.treeIndex ≤ t.tree.VisibleSize
          ∧ t.tree.VisibleSize = t.tree.visibleNodes.length)
    ∧ (Action.keyUp ∉ actions → ∃ t, (NewTreeView box tree).run actions = .ok t) := by
  obtain ⟨hw, hr⟩ := NewTreeView_inv box tree hh
  obtain ⟨hpart, htot⟩ := run_inv box.height actions _ hw
  refine ⟨fun t h1 => (hpart t h1).1.2.2.1, fun hno => ?_, fun hno => htot (Or.inl hno)⟩
  obtain ⟨t, h1⟩ := htot (Or.inr ⟨hno, hr⟩)
  exact ⟨t, h1, ((hpart t h1).2 hno hr).1, visibleSize_eq_length _⟩

theorem treeIndex_within_visible_witness :
    1 ≤ (boxOfHeight 2).height
    ∧ (∀ t, (NewTreeView (boxOfHeight 2) twoFiles).run [.keyDown, .keyUp, .pageDown] = .ok t →
        0 ≤ t.treeIndex)
    ∧ (Action.collapseOrExpandAll ∉ [Action.keyDown, .keyUp, .pageDown] →
        ∃ t, (NewTreeView (boxOfHeight 2) twoFiles).run [.keyDown, .keyUp, .pageDown] = .ok t
          ∧ t.treeIndex ≤ t.tree.VisibleSize
          ∧ t.tree.VisibleSize = t.tree.visibleNodes.length)
    ∧ (Action.keyUp ∉ [Action.keyDown, .keyUp, .pageDown] →
        ∃ t, (NewTreeView (boxOfHeight 2) twoFiles).run [.keyDown, .keyUp, .pageDown] = .ok t) :=
  ⟨by decide,
    treeIndex_within_visible (boxOfHeight 2) twoFiles [.keyDown, .keyUp, .pageDown] (by decide)⟩

/-- C2, as stated, fails: with frame height 1 on an expanded root holding two files, two
keyDown, collapseOrExpandAll and pageDown leave treeIndex = 1 above the viewport top
bufferIndexLowerBound = 2. -/
theorem selection_above_viewport_after_collapseAll :
    1 ≤ (boxOfHeight 1).height
    ∧ ((startHeightOne.run [.keyDown, .keyDown, .collapseOrExpandAll, .pageDown]).toOption.map
        fun t => t.indexes) = some (1, 2) := by
  decide

/-- C2, amended: at a fixed frame height h ≥ 1 and on any tree, in every state that a finite
sequence of the eight actions reaches from the initial state bufferIndexLowerBound ≥ 0 and
treeIndex < bufferIndexLowerBound + h; a sequence that holds no collapseOrExpandAll reaches a
state, and in it bufferIndexLowerBound ≤ treeIndex; a sequence that holds no keyUp reaches a
state. -/
theorem selection_within_viewport (box : TviewBox) (tree : TreeModel) (actions : List Action)
    (hh : 1 ≤ box.height) :
    (∀ t, (NewTreeView box tree).run actions = .ok t →
      0 ≤ t.bufferIndexLowerBound ∧ t.treeIndex < t.bufferIndexLowerBound + box.height)
    ∧ (Action.collapseOrExpandAll ∉ actions →
        ∃ t, (NewTreeView box tree).run actions = .ok t
          ∧ t.bufferIndexLowerBound ≤ t.treeIndex)
    ∧ (Action.keyUp ∉ actions → ∃ t, (NewTreeView box tree).run actions = .ok t) := by
  obtain ⟨hw, hr⟩ := NewTreeView_inv box tree hh
  obtain ⟨hpart, htot⟩ := run_inv box.height actions _ hw
  refine ⟨fun t h1 => ⟨(hpart t h1).1.2.2.2.1, (hpart t h1).1.2.2.2.2⟩, fun hno => ?_,
    fun hno => htot (Or.inl hno)⟩
  obtain ⟨t, h1⟩ := htot (Or.inr ⟨hno, hr⟩)
  exact ⟨t, h1, ((hpart t h1).2 hno hr).2⟩

theorem selection_within_viewport_witness :
    1 ≤ (boxOfHeight 2).height
    ∧ (∀ t, (NewTreeView (boxOfHeight 2) twoFiles).run [.keyDown, .keyRight, .keyUp] = .ok t →
        0 ≤ t.bufferIndexLowerBound
          ∧ t.treeIndex < t.bufferIndexLowerBound + (boxOfHeight 2).height)
    ∧ (Action.collapseOrExpandAll ∉ [Action.keyDown, .keyRight, .keyUp] →
        ∃ t, (NewTreeView (boxOfHeight 2) twoFiles).run [.keyDown, .keyRight, .keyUp] = .ok t
          ∧ t.bufferIndexLowerBound ≤ t.treeIndex)
    ∧ (Action.keyUp ∉ [Action.keyDown, .keyRight, .keyUp] →
        ∃ t, (NewTreeView (boxOfHeight 2) twoFiles).run [.keyDown, .keyRight, .keyUp] = .ok t) :=
  ⟨by decide,
    selection_within_viewport (boxOfHeight 2) twoFiles [.keyDown, .keyRight, .keyUp]
      (by decide)⟩

theorem foldl_keyLeft_none (l : List NodeRef) : ∀ (c acc : Int),
    (l.foldl (fun (s : Int × Int) r =>
        (s.1 + 1, if (none : Option (List Nat)) == some r.Path then s.1 else s.2)) (c, acc)).2
      = acc := by
  induction l with
  | nil => intro c acc; rfl
  | cons a l ih =>
    intro c acc
    simp only [List.foldl_cons]
    rw [ih]
    rfl

theorem selected_root (t : TreeView) (h0 : t.treeIndex = 0) :
    t.selected = some (.mk [] none t.tree.Root.Data t.tree.Root.Children) := by
  unfold TreeView.selected TreeModel.visibleNodes
  rw [h0]
  cases hroot : t.tree.Root with
  | mk d cs => simp [retainedNode]

/-- C10, as stated, fails: the state with treeIndex = 0 and bufferIndexLowerBound = 1, reached
at frame height 1 by keyDown, keyDown, collapseOrExpandAll, pageDown, keyUp, has the root
selected, and keyLeft moves bufferIndexLowerBound to 0. -/
theorem keyLeft_at_root_moves_viewport :
    ((startHeightOne.run [.keyDown, .keyDown, .collapseOrExpandAll, .pageDown, .keyUp]).toOption.map
        fun t => t.indexes) = some (0, 1)
    ∧ ((startHeightOne.run
          [.keyDown, .keyDown, .collapseOrExpandAll, .pageDown, .keyUp, .keyLeft]).toOption.map
        fun t => t.indexes) = some (0, 0) := by
  decide

/-- C10, amended: in a state with treeIndex = 0 the selection resolves to the root node, which
has no parent, and keyLeft completes without failing, reports true, leaves treeIndex and the
tree as they were and sets bufferIndexLowerBound to min(bufferIndexLowerBound, 0): the whole
state is unchanged when bufferIndexLowerBound ≤ 0. -/
theorem keyLeft_at_root (t : TreeView) (h0 : t.treeIndex = 0) :
    (∃ root, t.getAbsPositionNode = .ok (some root) ∧ root.Path = [] ∧ root.Parent = none)
    ∧ t.keyLeft = .ok ({ t with bufferIndexLowerBound := min t.bufferIndexLowerBound 0 }, true)
    ∧ (t.bufferIndexLowerBound ≤ 0 → t.keyLeft = .ok (t, true)) := by
  have hsel := selected_root t h0
  have hk : t.keyLeft
      = .ok ({ t with bufferIndexLowerBound := min t.bufferIndexLowerBound 0 }, true) := by
    rw [keyLeft_eq]
    have : (if 0 ≤ t.treeIndex then t.tree.visibleNodes[t.treeIndex.toNat]? else none)
        = some (.mk [] none t.tree.Root.Data t.tree.Root.Children) := hsel
    rw [this]
    simp only [nodeRef_Parent_mk, pathOf, Option.map_none', foldl_keyLeft_none]
    congr 2
    cases t with
    | mk box tree idx b g sa =>
      simp only at h0
      subst h0
      congr 1
      split_ifs <;> omega
  refine ⟨⟨.mk [] none t.tree.Root.Data t.tree.Root.Children, ?_, rfl, rfl⟩, hk, ?_⟩
  · rw [getAbsPositionNode_selected, hsel]
  · intro hb
    rw [hk, min_eq_left hb]

theorem keyLeft_at_root_witness :
    (∃ root, startHeightTwo.getAbsPositionNode = .ok (some root) ∧ root.Path = []
        ∧ root.Parent = none)
    ∧ startHeightTwo.keyLeft
        = .ok ({ startHeightTwo with
            bufferIndexLowerBound := min startHeightTwo.bufferIndexLowerBound 0 }, true)
    ∧ (startHeightTwo.bufferIndexLowerBound ≤ 0 →
        startHeightTwo.keyLeft = .ok (startHeightTwo, true)) :=
  keyLeft_at_root startHeightTwo rfl

/-! ## Collapsing one directory -/

mutual
theorem shownPaths_collapse : ∀ (n : FileNode) (p : List Nat),
    shownPaths (n.setCollapsedAt true p) = (shownPaths n).filter fun q => !below p q
  | .mk d cs, [] => by
    have h1 : (shownPathsList d.ViewInfo.Collapsed 0 cs).filter (fun q => !below [] q) = [] := by
      rw [List.filter_eq_nil_iff]
      intro q hq
      obtain ⟨h, t, rfl, _⟩ := shownPathsList_head _ _ _ _ hq
      simp [below]
    have h2 : (d.setCollapsed true).ViewInfo.Collapsed = true := rfl
    simp only [FileNode.setCollapsedAt, shownPaths, h2, shownPathsList_collapsed,
      List.filter_cons, below, Bool.not_false, if_true, h1]
  | .mk d cs, i :: p => by
    have ih := shownPathsList_collapse cs d.ViewInfo.Collapsed 0 i p
    simp only [Nat.zero_add] at ih
    simp only [FileNode.setCollapsedAt, shownPaths, ih, List.filter_cons, below,
      Bool.not_false, if_true]
theorem shownPathsList_collapse : ∀ (cs : List FileNode) (pc : Bool) (j i : Nat)
    (p : List Nat),
    shownPathsList pc j (setCollapsedAtList true i p cs)
      = (shownPathsList pc j cs).filter fun q => !below ((j + i) :: p) q
  | [], pc, j, i, p => by simp [setCollapsedAtList, shownPathsList]
  | c :: rest, pc, j, 0, p => by
    have ihc := shownPaths_collapse c p
    have hY : (shownPathsList pc (j + 1) rest).filter (fun q => !below (j :: p) q)
        = shownPathsList pc (j + 1) rest := by
      rw [List.filter_eq_self]
      intro q hq
      obtain ⟨h, t, rfl, hle⟩ := shownPathsList_head _ _ _ _ hq
      have : (j == h) = false := by simp; omega
      simp [below, this]
    simp only [setCollapsedAtList, Nat.add_zero]
    rw [shownPathsList_cons, shownPathsList_cons, List.filter_append, hY,
      setCollapsedAt_Data_Hidden]
    congr 1
    split
    · rw [ihc, List.filter_map]
      congr 1
      apply List.filter_congr
      intro q _
      simp [below]
    · rfl
  | c :: rest, pc, j, i + 1, p => by
    have ihr := shownPathsList_collapse rest pc (j + 1) i p
    have hidx : j + 1 + i = j + (i + 1) := by omega
    rw [hidx] at ihr
    have hX : ∀ X : List (List Nat), (∀ q ∈ X, ∃ t, q = j :: t) →
        X.filter (fun q => !below ((j + (i + 1)) :: p) q) = X := by
      intro X hXq
      rw [List.filter_eq_self]
      intro q hq
      obtain ⟨t, rfl⟩ := hXq q hq
      have : (j + (i + 1) == j) = false := by simp
      simp [below, this]
    simp only [setCollapsedAtList]
    rw [shownPathsList_cons, shownPathsList_cons, List.filter_append, ihr]
    congr 1
    split
    · rw [hX]
      intro q hq
      rcases List.mem_map.1 hq with ⟨t, _, rfl⟩
      exact ⟨t, rfl⟩
    · rfl
end

theorem length_filter_add (p : NodeRef → Bool) (l : List NodeRef) :
    ((l.filter p).length : Int) + (l.filter fun x => !p x).length = l.length := by
  induction l with
  | nil => simp
  | cons a l ih =>
    by_cases h : p a = true
    · simp only [List.filter_cons, h, if_true, Bool.not_true, Bool.false_eq_true, if_false,
        List.length_cons]
      push_cast
      omega
    · have h2 : p a = false := by simpa using h
      simp only [List.filter_cons, h2, Bool.false_eq_true, if_false, Bool.not_false, if_true,
        List.length_cons]
      push_cast
      omega

mutual
theorem retainedNode_dataAt : ∀ (n : FileNode) (pre : List Nat) (parent : Option NodeRef)
    (r : NodeRef), r ∈ retainedNode pre parent n →
    ∃ rel, r.Path = pre ++ rel ∧ n.dataAt rel = some r.Data
  | .mk d cs, pre, parent, r => by
    intro hr
    simp only [retainedNode, List.mem_cons] at hr
    rcases hr with rfl | hr
    · exact ⟨[], by simp, rfl⟩
    · obtain ⟨i, rel, h1, h2⟩ := retainedChildren_dataAt cs pre (.mk pre parent d cs) 0 r hr
      refine ⟨i :: rel, ?_, ?_⟩
      · simpa using h1
      · simpa [FileNode.dataAt] using h2
theorem retainedChildren_dataAt : ∀ (cs : List FileNode) (ppath : List Nat)
    (parent : NodeRef) (j : Nat) (r : NodeRef), r ∈ retainedChildren ppath parent j cs →
    ∃ i rel, r.Path = ppath ++ ((j + i) :: rel) ∧ dataAtList i rel cs = some r.Data
  | [], ppath, parent, j, r => by
    intro hr
    simp [retainedChildren] at hr
  | c :: rest, ppath, parent, j, r => by
    intro hr
    simp only [retainedChildren, List.mem_append] at hr
    rcases hr with hr | hr
    · split at hr
      · obtain ⟨rel, h1, h2⟩ := retainedNode_dataAt c (ppath ++ [j]) (some parent) r hr
        refine ⟨0, rel, ?_, ?_⟩
        · simpa using h1
        · simpa [dataAtList] using h2
      · simp at hr
    · obtain ⟨i, rel, h1, h2⟩ := retainedChildren_dataAt rest ppath parent (j + 1) r hr
      refine ⟨i + 1, rel, ?_, ?_⟩
      · rw [h1]
        congr 2
        omega
      · simpa [dataAtList] using h2
end

theorem visibleNodes_dataAt (tree : TreeModel) (r : NodeRef) (hr : r ∈ tree.visibleNodes) :
    tree.Root.dataAt r.Path = some r.Data := by
  obtain ⟨rel, h1, h2⟩ := retainedNode_dataAt tree.Root [] none r hr
  simp only [List.nil_append] at h1
  rw [h1]
  exact h2

mutual
theorem dataAt_setCollapsedAt (v : Bool) : ∀ (n : FileNode) (p : List Nat),
    (n.setCollapsedAt v p).dataAt p = (n.dataAt p).map fun d => d.setCollapsed v
  | .mk d cs, [] => by simp [FileNode.setCollapsedAt, FileNode.dataAt]
  | .mk d cs, i :: p => by
    simp only [FileNode.setCollapsedAt, FileNode.dataAt]
    exact dataAtList_setCollapsedAtList v cs i p
theorem dataAtList_setCollapsedAtList (v : Bool) : ∀ (cs : List FileNode) (i : Nat)
    (p : List Nat),
    dataAtList i p (setCollapsedAtList v i p cs) = (dataAtList i p cs).map fun d =>
      d.setCollapsed v
  | [], i, p => by simp [setCollapsedAtList, dataAtList]
  | c :: rest, 0, p => by
    simp only [setCollapsedAtList, dataAtList]
    exact dataAt_setCollapsedAt v c p
  | c :: rest, i + 1, p => by
    simp only [setCollapsedAtList, dataAtList]
    exact dataAtList_setCollapsedAtList v rest i p
end

mutual
theorem setCollapsedAt_twice (v w : Bool) : ∀ (n : FileNode) (p : List Nat),
    (n.setCollapsedAt w p).setCollapsedAt v p = n.setCollapsedAt v p
  | .mk d cs, [] => by simp [FileNode.setCollapsedAt, NodeData.setCollapsed]
  | .mk d cs, i :: p => by
    simp only [FileNode.setCollapsedAt]
    rw [setCollapsedAtList_twice v w cs i p]
theorem setCollapsedAtList_twice (v w : Bool) : ∀ (cs : List FileNode) (i : Nat)
    (p : List Nat),
    setCollapsedAtList v i p (setCollapsedAtList w i p cs) = setCollapsedAtList v i p cs
  | [], i, p => by simp [setCollapsedAtList]
  | c :: rest, 0, p => by
    simp only [setCollapsedAtList]
    rw [setCollapsedAt_twice v w c p]
  | c :: rest, i + 1, p => by
    simp only [setCollapsedAtList]
    rw [setCollapsedAtList_twice v w rest i p]
end

mutual
theorem setCollapsedAt_same (v : Bool) : ∀ (n : FileNode) (p : List Nat) (d : NodeData),
    n.dataAt p = some d → d.ViewInfo.Collapsed = v → n.setCollapsedAt v p = n
  | .mk d0 cs, [], d => by
    intro h hv
    simp only [FileNode.dataAt, Option.some.injEq] at h
    subst h
    subst hv
    rfl
  | .mk d0 cs, i :: p, d => by
    intro h hv
    simp only [FileNode.dataAt] at h
    simp only [FileNode.setCollapsedAt]
    rw [setCollapsedAtList_same v cs i p d h hv]
theorem setCollapsedAtList_same (v : Bool) : ∀ (cs : List FileNode) (i : Nat) (p : List Nat)
    (d : NodeData), dataAtList i p cs = some d → d.ViewInfo.Collapsed = v →
    setCollapsedAtList v i p cs = cs
  | [], i, p, d => by
    intro h
    simp [dataAtList] at h
  | c :: rest, 0, p, d => by
    intro h hv
    simp only [dataAtList] at h
    simp only [setCollapsedAtList]
    rw [setCollapsedAt_same v c p d h hv]
  | c :: rest, i + 1, p, d => by
    intro h hv
    simp only [dataAtList] at h
    simp only [setCollapsedAtList]
    rw [setCollapsedAtList_same v rest i p d h hv]
end

theorem length_filter_paths (g : List Nat → Bool) (l : List NodeRef) :
    ((l.map NodeRef.Path).filter g).length = (l.filter fun r => g r.Path).length := by
  induction l with
  | nil => rfl
  | cons a l ih =>
    by_cases h : g a.Path = true
    · simp only [List.map_cons, List.filter_cons, h, if_true, List.length_cons, ih]
    · simp only [List.map_cons, List.filter_cons, h, if_false, ih, Bool.false_eq_true]

/-- C6: when the selection resolves to an expanded directory with k descendants among the nodes
the visibility-filtered traversal enumerates, collapseDir reports true and leaves a tree with
VisibleSize() smaller by exactly k, and a second collapseDir reports true and gives back the
state, with the tree and so VisibleSize(), of before the first call. -/
theorem collapseDir_visibleSize (t : TreeView) (node : NodeRef)
    (hsel : t.getAbsPositionNode = .ok (some node))
    (hdir : node.Data.FileInfo.IsDir = true)
    (hexp : node.Data.ViewInfo.Collapsed = false) :
    ∃ t1, t.collapseDir = .ok (t1, true)
      ∧ t1.tree.VisibleSize
          = t.tree.VisibleSize
            - ((t.tree.visibleNodes.filter fun r => below node.Path r.Path).length : Int)
      ∧ t1.collapseDir = .ok (t, true) := by
  have hs : t.selected = some node := by
    rw [getAbsPositionNode_selected] at hsel
    injection hsel
  obtain ⟨h0, hcur⟩ := selected_some t node hs
  refine ⟨{ t with tree := t.tree.setCollapsed node true }, ?_, ?_, ?_⟩
  · simp [TreeView.collapseDir, hsel, hdir, hexp]
  · have h1 := length_filter_add (fun r => below node.Path r.Path) t.tree.visibleNodes
    have h2 := length_filter_paths (fun q => !below node.Path q) t.tree.visibleNodes
    rw [visibleNodes_paths] at h2
    rw [visibleSize_eq_length, visibleSize_eq_length, visibleNodes_length]
    simp only [TreeModel.setCollapsed]
    rw [shownPaths_collapse, h2]
    omega
  · obtain ⟨node1, hn1, hp1⟩ := Option.map_eq_some'.1
      (visibleNodes_setCollapsed_at t.tree _ node true hcur)
    have hd0 := visibleNodes_dataAt t.tree node (List.getElem?_mem hcur)
    have hd1 := visibleNodes_dataAt _ node1 (List.getElem?_mem hn1)
    simp only [TreeModel.setCollapsed] at hd1
    rw [hp1, dataAt_setCollapsedAt, hd0] at hd1
    simp only [Option.map_some', Option.some.injEq] at hd1
    have hs1 : ({ t with tree := t.tree.setCollapsed node true } : TreeView).selected
        = some node1 := by
      simp only [TreeView.selected, h0, if_true]
      exact hn1
    have hdir1 : node1.Data.FileInfo.IsDir = true := by rw [← hd1]; exact hdir
    have hcol1 : node1.Data.ViewInfo.Collapsed = true := by rw [← hd1]; rfl
    have htree : (t.tree.setCollapsed node true).setCollapsed node1 false = t.tree := by
      simp only [TreeModel.setCollapsed]
      rw [hp1, setCollapsedAt_twice, setCollapsedAt_same false _ _ _ hd0 hexp]
    simp only [TreeView.collapseDir, getAbsPositionNode_selected, hs1, hdir1, hcol1, if_true,
      Bool.not_true, htree]

theorem collapseDir_visibleSize_witness :
    ∃ t1, onNestedDir.collapseDir = .ok (t1, true)
      ∧ t1.tree.VisibleSize
          = onNestedDir.tree.VisibleSize
            - ((onNestedDir.tree.visibleNodes.filter fun r =>
                below nestedDirRef.Path r.Path).length : Int)
      ∧ t1.collapseDir = .ok (onNestedDir, true) :=
  collapseDir_visibleSize onNestedDir nestedDirRef rfl rfl rfl

/-! ## The scenario, and the single actions -/

theorem scenario_step1 : scenarioStart.act .keyDown = .ok scenarioOnA := rfl

theorem scenario_step2 : scenarioOnA.act .keyRight = .ok scenarioInA := rfl

theorem scenario_step3 : scenarioInA.act .keyLeft = .ok scenarioBackOnA := rfl

theorem scenario_step4 : scenarioBackOnA.act .keyUp = .ok scenarioOnRoot := rfl

theorem scenario_run1 : scenarioStart.run [.keyDown] = .ok scenarioOnA := by
  simp only [TreeView.run, scenario_step1]

theorem scenario_run2 : scenarioStart.run [.keyDown, .keyRight] = .ok scenarioInA := by
  simp only [TreeView.run, scenario_step1, scenario_step2]

theorem scenario_run3 :
    scenarioStart.run [.keyDown, .keyRight, .keyLeft] = .ok scenarioBackOnA := by
  simp only [TreeView.run, scenario_step1, scenario_step2, scenario_step3]

theorem scenario_run4 :
    scenarioStart.run [.keyDown, .keyRight, .keyLeft, .keyUp] = .ok scenarioOnRoot := by
  simp only [TreeView.run, scenario_step1, scenario_step2, scenario_step3, scenario_step4]

/-- C11: on the tree root -> {A (collapsed directory with 2 children), B (file)} with frame
height 2, from the initial state the actions keyDown, keyRight, keyLeft, keyUp give in turn the
(treeIndex, bufferIndexLowerBound) pairs (1,0), (2,1), (1,1), (0,0); A is expanded after
keyRight, and the selection resolves to A's first child after keyRight, to A after keyLeft and
to the root after keyUp. -/
theorem scenario_keyDown_keyRight_keyLeft_keyUp :
    scenarioStart.indexes = (0, 0)
    ∧ ((scenarioStart.run [.keyDown]).toOption.map fun t => t.indexes) = some (1, 0)
    ∧ ((scenarioStart.run [.keyDown, .keyRight]).toOption.map fun t => t.indexes) = some (2, 1)
    ∧ ((scenarioStart.run [.keyDown, .keyRight, .keyLeft]).toOption.map fun t => t.indexes)
        = some (1, 1)
    ∧ ((scenarioStart.run [.keyDown, .keyRight, .keyLeft, .keyUp]).toOption.map
        fun t => t.indexes) = some (0, 0)
    ∧ (scenarioStart.tree.Root.dataAt [0]).map (fun d => d.ViewInfo.Collapsed) = some true
    ∧ ((scenarioStart.run [.keyDown]).toOption.bind fun t => t.selectedPath) = some [0]
    ∧ ((scenarioStart.run [.keyDown, .keyRight]).toOption.bind
        fun t => (t.tree.Root.dataAt [0]).map fun d => d.ViewInfo.Collapsed) = some false
    ∧ ((scenarioStart.run [.keyDown, .keyRight]).toOption.bind fun t => t.selectedPath)
        = some [0, 0]
    ∧ ((scenarioStart.run [.keyDown, .keyRight, .keyLeft]).toOption.bind
        fun t => t.selectedPath) = some [0]
    ∧ ((scenarioStart.run [.keyDown, .keyRight, .keyLeft, .keyUp]).toOption.bind
        fun t => t.selectedPath) = some [] := by
  rw [scenario_run1, scenario_run2, scenario_run3, scenario_run4]
  decide

mutual
theorem dataAt_setCollapsedAt_ne (v : Bool) : ∀ (n : FileNode) (p q : List Nat), q ≠ p →
    (n.setCollapsedAt v p).dataAt q = n.dataAt q
  | .mk d cs, [], [] => fun h => absurd rfl h
  | .mk d cs, [], j :: q => fun _ => by simp only [FileNode.setCollapsedAt, FileNode.dataAt]
  | .mk d cs, i :: p, [] => fun _ => by simp only [FileNode.setCollapsedAt, FileNode.dataAt]
  | .mk d cs, i :: p, j :: q => fun h => by
    simp only [FileNode.setCollapsedAt, FileNode.dataAt]
    exact dataAtList_setCollapsedAtList_ne v cs i j p q (by
      intro hc
      apply h
      rw [hc.1, hc.2])
theorem dataAtList_setCollapsedAtList_ne (v : Bool) : ∀ (cs : List FileNode) (i j : Nat)
    (p q : List Nat), ¬ (j = i ∧ q = p) →
    dataAtList j q (setCollapsedAtList v i p cs) = dataAtList j q cs
  | [], i, j, p, q => fun _ => by simp only [setCollapsedAtList]
  | c :: rest, 0, 0, p, q => fun h => by
    simp only [setCollapsedAtList, dataAtList]
    exact dataAt_setCollapsedAt_ne v c p q (fun hc => h ⟨rfl, hc⟩)
  | c :: rest, 0, j + 1, p, q => fun _ => by simp only [setCollapsedAtList, dataAtList]
  | c :: rest, i + 1, 0, p, q => fun _ => by simp only [setCollapsedAtList, dataAtList]
  | c :: rest, i + 1, j + 1, p, q => fun h => by
    simp only [setCollapsedAtList, dataAtList]
    exact dataAtList_setCollapsedAtList_ne v rest i j p q (fun hc => h ⟨by omega, hc.2⟩)
end

mutual
theorem dataAt_setAllDirs (v : Bool) : ∀ (n : FileNode) (q : List Nat),
    (n.setAllDirs v).dataAt q
      = (n.dataAt q).map fun d => if d.FileInfo.IsDir then d.setCollapsed v else d
  | .mk d cs, [] => by simp only [FileNode.setAllDirs, FileNode.dataAt, Option.map_some']
  | .mk d cs, j :: q => by
    simp only [FileNode.setAllDirs, FileNode.dataAt]
    exact dataAtList_setAllDirsList v cs j q
theorem dataAtList_setAllDirsList (v : Bool) : ∀ (cs : List FileNode) (j : Nat) (q : List Nat),
    dataAtList j q (setAllDirsList v cs)
      = (dataAtList j q cs).map fun d => if d.FileInfo.IsDir then d.setCollapsed v else d
  | [], j, q => by simp only [setAllDirsList, dataAtList, Option.map_none']
  | c :: rest, 0, q => by
    simp only [setAllDirsList, dataAtList]
    exact dataAt_setAllDirs v c q
  | c :: rest, j + 1, q => by
    simp only [setAllDirsList, dataAtList]
    exact dataAtList_setAllDirsList v rest j q
end

/-- The data of every node after a store through the pointer to a visible node. -/
theorem dataAt_setCollapsed (tree : TreeModel) (node : NodeRef) (v : Bool)
    (hn : node ∈ tree.visibleNodes) (q : List Nat) :
    (tree.setCollapsed node v).Root.dataAt q
      = if q = node.Path then some (node.Data.setCollapsed v) else tree.Root.dataAt q := by
  simp only [TreeModel.setCollapsed]
  by_cases hq : q = node.Path
  · rw [if_pos hq, hq, dataAt_setCollapsedAt, visibleNodes_dataAt tree node hn]
    rfl
  · rw [if_neg hq, dataAt_setCollapsedAt_ne v _ _ _ hq]

theorem selected_mem (t : TreeView) (node : NodeRef) (h : t.selected = some node) :
    node ∈ t.tree.visibleNodes :=
  List.getElem?_mem (selected_some t node h).2

theorem getAbsPositionNode_some (t : TreeView) (node : NodeRef)
    (h : t.getAbsPositionNode = .ok (some node)) : t.selected = some node := by
  rw [getAbsPositionNode_selected] at h
  injection h

/-- C16: collapseDir completes; it reports true if and only if the selection resolves to a
directory node; then it negates that node's Collapsed flag and changes nothing else: every
other node keeps its data, and the box, treeIndex, bufferIndexLowerBound, globalCollapseAll and
showAttributes are as before; when it reports false the whole state is unchanged. -/
theorem collapseDir_spec (t : TreeView) :
    ∃ t1 r, t.collapseDir = .ok (t1, r)
      ∧ (r = true ↔ ∃ node, t.getAbsPositionNode = .ok (some node)
          ∧ node.Data.FileInfo.IsDir = true)
      ∧ (r = false → t1 = t)
      ∧ (∀ node, t.getAbsPositionNode = .ok (some node) → node.Data.FileInfo.IsDir = true →
          t1 = { t with tree := t1.tree }
          ∧ ∀ q, t1.tree.Root.dataAt q
              = if q = node.Path then
                  some (node.Data.setCollapsed (!node.Data.ViewInfo.Collapsed))
                else t.tree.Root.dataAt q) := by
  cases hsel : t.selected with
  | none =>
    refine ⟨t, false, ?_, ?_, fun _ => rfl, ?_⟩
    · simp only [TreeView.collapseDir, getAbsPositionNode_selected, hsel]
    · simp [getAbsPositionNode_selected, hsel]
    · intro node hn
      rw [getAbsPositionNode_selected, hsel] at hn
      cases hn
  | some node =>
    by_cases hd : node.Data.FileInfo.IsDir = true
    · refine ⟨{ t with tree := t.tree.setCollapsed node (!node.Data.ViewInfo.Collapsed) }, true,
        ?_, ?_, (fun h => by cases h), ?_⟩
      · simp only [TreeView.collapseDir, getAbsPositionNode_selected, hsel, hd, if_true]
      · simp only [true_iff]
        exact ⟨node, by rw [getAbsPositionNode_selected, hsel], hd⟩
      · intro node2 hn _
        rw [getAbsPositionNode_selected, hsel] at hn
        injection hn with hn
        injection hn with hn
        subst hn
        exact ⟨rfl, dataAt_setCollapsed t.tree node _ (selected_mem t node hsel)⟩
    · refine ⟨t, false, ?_, ?_, fun _ => rfl, ?_⟩
      · simp only [TreeView.collapseDir, getAbsPositionNode_selected, hsel, hd,
          Bool.false_eq_true, if_false]
      · constructor
        · intro h; cases h
        · rintro ⟨node2, hn, hd2⟩
          rw [getAbsPositionNode_selected, hsel] at hn
          injection hn with hn
          injection hn with hn
          subst hn
          exact absurd hd2 hd
      · intro node2 hn hd2
        rw [getAbsPositionNode_selected, hsel] at hn
        injection hn with hn
        injection hn with hn
        subst hn
        exact absurd hd2 hd

/-- C17: collapseOrExpandAll completes and reports true; it sets the Collapsed flag of every
directory node of the tree, hidden or below a collapsed ancestor or not, to the value
globalCollapseAll had before the call and leaves every other node as it was, negates
globalCollapseAll, and leaves treeIndex and bufferIndexLowerBound unchanged. -/
theorem collapseOrExpandAll_spec (t : TreeView) :
    ∃ t1, t.collapseOrExpandAll = .ok (t1, true)
      ∧ t1.globalCollapseAll = (!t.globalCollapseAll)
      ∧ t1.treeIndex = t.treeIndex
      ∧ t1.bufferIndexLowerBound = t.bufferIndexLowerBound
      ∧ ∀ q, t1.tree.Root.dataAt q
          = (t.tree.Root.dataAt q).map fun d =>
              if d.FileInfo.IsDir then d.setCollapsed t.globalCollapseAll else d :=
  ⟨_, collapseOrExpandAll_eq t, rfl, rfl, rfl, fun q => dataAt_setAllDirs _ _ q⟩

/-- C19: in a state with treeIndex ≥ 0, keyLeft completes, reports true and leaves a treeIndex
that is ≥ 0 and ≤ the treeIndex before it. -/
theorem keyLeft_not_forward (t : TreeView) (h0 : 0 ≤ t.treeIndex) :
    ∃ t1, t.keyLeft = .ok (t1, true) ∧ 0 ≤ t1.treeIndex ∧ t1.treeIndex ≤ t.treeIndex := by
  rw [keyLeft_eq]
  cases hsel : t.selected with
  | none =>
    have : (if 0 ≤ t.treeIndex then t.tree.visibleNodes[t.treeIndex.toNat]? else none) = none :=
      hsel
    rw [this]
    exact ⟨t, rfl, h0, le_refl _⟩
  | some cur =>
    have : (if 0 ≤ t.treeIndex then t.tree.visibleNodes[t.treeIndex.toNat]? else none)
        = some cur := hsel
    rw [this]
    obtain ⟨hn0, hnle⟩ := keyLeft_index_le t cur hsel
    exact ⟨_, rfl, hn0, hnle⟩

theorem keyLeft_not_forward_witness :
    ∃ t1, scenarioInA.keyLeft = .ok (t1, true) ∧ 0 ≤ t1.treeIndex
      ∧ t1.treeIndex ≤ scenarioInA.treeIndex :=
  keyLeft_not_forward scenarioInA (by decide)

/-- C20: keyDown changes the state exactly when treeIndex < VisibleSize(), and reports true
exactly then; VisibleSize() is the number of nodes the visibility-filtered traversal
enumerates, and with the selection on the last of them (treeIndex = VisibleSize() - 1) keyDown
reports true and moves treeIndex to VisibleSize(), an index at which getAbsPositionNode returns
no node. -/
theorem keyDown_changes_iff (t : TreeView) :
    (t.keyDown.1 = t ↔ ¬ t.treeIndex < t.tree.VisibleSize)
    ∧ (t.keyDown.2 = true ↔ t.treeIndex < t.tree.VisibleSize)
    ∧ t.tree.VisibleSize = t.tree.visibleNodes.length
    ∧ (t.treeIndex = t.tree.VisibleSize - 1 →
        t.keyDown.2 = true ∧ t.keyDown.1.treeIndex = t.tree.VisibleSize
        ∧ t.keyDown.1.getAbsPositionNode = .ok none) := by
  refine ⟨?_, ?_, visibleSize_eq_length _, ?_⟩
  · by_cases h : t.treeIndex ≥ t.tree.VisibleSize
    · simp only [TreeView.keyDown, TviewBox.GetInnerRect, h, if_true, true_iff]
      omega
    · simp only [TreeView.keyDown, TviewBox.GetInnerRect, h, if_false]
      constructor
      · intro heq
        have := congrArg TreeView.treeIndex heq
        simp only at this
        omega
      · intro h2; omega
  · by_cases h : t.treeIndex ≥ t.tree.VisibleSize
    · simp only [TreeView.keyDown, TviewBox.GetInnerRect, h, if_true]
      constructor
      · intro h2; cases h2
      · intro h2; omega
    · simp only [TreeView.keyDown, TviewBox.GetInnerRect, h, if_false, true_iff]
      omega
  · intro hlast
    have h : ¬ t.treeIndex ≥ t.tree.VisibleSize := by omega
    have hN := VisibleSize_nonneg t.tree
    simp only [TreeView.keyDown, TviewBox.GetInnerRect, h, if_false, getAbsPositionNode_eq]
    refine ⟨trivial, by omega, ?_⟩
    have hlen := visibleSize_eq_length t.tree
    have h0 : 0 ≤ t.treeIndex + 1 := by omega
    have hge : t.tree.visibleNodes.length ≤ (t.treeIndex + 1).toNat := by omega
    rw [if_pos h0, List.getElem?_eq_none hge]

theorem keyDown_changes_iff_witness :
    pastTheEnd.keyDown.1 = pastTheEnd
    ∧ (startHeightTwo.keyDown.2 = true)
    ∧ ({ startHeightTwo with treeIndex := 2 } : TreeView).keyDown.1.getAbsPositionNode
        = .ok none :=
  ⟨(keyDown_changes_iff pastTheEnd).1.2 (by decide),
    (keyDown_changes_iff startHeightTwo).2.1.2 (by decide),
    ((keyDown_changes_iff { startHeightTwo with treeIndex := 2 }).2.2.2 (by decide)).2.2⟩

/-- C18: no action changes a node field other than Collapsed. keyDown, keyLeft, pageUp and
pageDown return the tree they were given, and so does keyUp whenever it returns, which it does
exactly when treeIndex ≤ VisibleSize(); keyRight and collapseDir return it too or store into the
Collapsed flag of the selected node only, every other node keeping its data;
collapseOrExpandAll stores into the Collapsed flag of directory nodes only; and a store into
Collapsed leaves the file information and the Hidden flag of the node as they were. -/
theorem actions_change_only_collapsed (t : TreeView) :
    t.keyDown.1.tree = t.tree
    ∧ t.pageUp.1.tree = t.tree
    ∧ t.pageDown.1.tree = t.tree
    ∧ ((∀ t1 r, t.keyUp = .ok (t1, r) → t1.tree = t.tree)
      ∧ ((∃ t1 r, t.keyUp = .ok (t1, r)) ↔ t.treeIndex ≤ t.tree.VisibleSize))
    ∧ (∃ t1 r, t.keyLeft = .ok (t1, r) ∧ t1.tree = t.tree)
    ∧ (∃ t1 r, t.keyRight = .ok (t1, r)
        ∧ (t1.tree = t.tree
          ∨ ∃ node, t.getAbsPositionNode = .ok (some node)
              ∧ ∀ q, t1.tree.Root.dataAt q
                  = if q = node.Path then some (node.Data.setCollapsed false)
                    else t.tree.Root.dataAt q))
    ∧ (∃ t1 r, t.collapseDir = .ok (t1, r)
        ∧ (t1.tree = t.tree
          ∨ ∃ node, t.getAbsPositionNode = .ok (some node)
              ∧ ∀ q, t1.tree.Root.dataAt q
                  = if q = node.Path then
                      some (node.Data.setCollapsed (!node.Data.ViewInfo.Collapsed))
                    else t.tree.Root.dataAt q))
    ∧ (∃ t1 r, t.collapseOrExpandAll = .ok (t1, r)
        ∧ ∀ q, t1.tree.Root.dataAt q
            = (t.tree.Root.dataAt q).map fun d =>
                if d.FileInfo.IsDir then d.setCollapsed t.globalCollapseAll else d)
    ∧ (∀ (d : NodeData) (v : Bool), (d.setCollapsed v).FileInfo = d.FileInfo
        ∧ (d.setCollapsed v).ViewInfo.Hidden = d.ViewInfo.Hidden) := by
  refine ⟨?_, ?_, ?_, ?_, ?_, ?_, ?_, ?_, fun _ _ => ⟨rfl, rfl⟩⟩
  · simp only [TreeView.keyDown, TviewBox.GetInnerRect]
    split <;> rfl
  · simp only [TreeView.pageUp, TviewBox.GetInnerRect]
    split <;> rfl
  · simp only [TreeView.pageDown, TviewBox.GetInnerRect]
    split <;> rfl
  · rw [keyUp_eq, visibleSize_eq_length]
    by_cases h : t.treeIndex ≤ 0
    · rw [if_pos h]
      refine ⟨fun t1 r h1 => ?_, fun _ => by omega, fun _ => ⟨_, _, rfl⟩⟩
      cases h1; rfl
    · rw [if_neg h]
      by_cases hlt : t.treeIndex - 1 < (t.tree.visibleNodes.length : Int)
      · rw [if_pos hlt]
        refine ⟨fun t1 r h1 => ?_, fun _ => by omega, fun _ => ⟨_, _, rfl⟩⟩
        cases h1; rfl
      · rw [if_neg hlt]
        refine ⟨fun t1 r h1 => ?_, fun h1 => ?_, fun h1 => by omega⟩
        · cases h1
        · obtain ⟨t1, r, h2⟩ := h1; cases h2
  · rw [keyLeft_eq]
    cases (if 0 ≤ t.treeIndex then t.tree.visibleNodes[t.treeIndex.toNat]? else none) with
    | none => exact ⟨_, _, rfl, rfl⟩
    | some cur => exact ⟨_, _, rfl, rfl⟩
  · simp only [TreeView.keyRight, getAbsPositionNode_selected, TviewBox.GetInnerRect]
    cases hsel : t.selected with
    | none => exact ⟨_, _, rfl, Or.inl rfl⟩
    | some node =>
      dsimp only
      by_cases h1 : (!node.Data.FileInfo.IsDir) = true
      · rw [if_pos h1]; exact ⟨_, _, rfl, Or.inl rfl⟩
      · rw [if_neg h1]
        by_cases h2 : (node.Children.length == 0) = true
        · rw [if_pos h2]; exact ⟨_, _, rfl, Or.inl rfl⟩
        · rw [if_neg h2]
          refine ⟨_, _, rfl, ?_⟩
          by_cases h3 : node.Data.ViewInfo.Collapsed = true
          · right
            refine ⟨node, rfl, ?_⟩
            simp only [h3, if_true]
            exact dataAt_setCollapsed t.tree node false (selected_mem t node hsel)
          · left
            simp only [h3, if_false, Bool.false_eq_true]
  · simp only [TreeView.collapseDir, getAbsPositionNode_selected]
    cases hsel : t.selected with
    | none => exact ⟨_, _, rfl, Or.inl rfl⟩
    | some node =>
      dsimp only
      by_cases h1 : node.Data.FileInfo.IsDir = true
      · rw [if_pos h1]
        exact ⟨_, _, rfl, Or.inr ⟨node, rfl,
          dataAt_setCollapsed t.tree node _ (selected_mem t node hsel)⟩⟩
      · rw [if_neg h1]; exact ⟨_, _, rfl, Or.inl rfl⟩
  · exact ⟨_, _, collapseOrExpandAll_eq t, fun q => dataAt_setAllDirs _ _ q⟩

/-! ## Moving to the parent -/

mutual
theorem shownPaths_inj : ∀ (n : FileNode) (j k : Nat) (q : List Nat),
    (shownPaths n)[j]? = some q → (shownPaths n)[k]? = some q → j = k
  | .mk d cs, j, k, q => by
    intro hj hk
    cases j with
    | zero =>
      simp only [shownPaths, List.getElem?_cons_zero, Option.some.injEq] at hj
      subst hj
      cases k with
      | zero => rfl
      | succ k =>
        simp only [shownPaths, List.getElem?_cons_succ] at hk
        obtain ⟨h, t, he, _⟩ := shownPathsList_head_at _ _ _ _ _ hk
        cases he
    | succ j =>
      simp only [shownPaths, List.getElem?_cons_succ] at hj
      cases k with
      | zero =>
        simp only [shownPaths, List.getElem?_cons_zero, Option.some.injEq] at hk
        subst hk
        obtain ⟨h, t, he, _⟩ := shownPathsList_head_at _ _ _ _ _ hj
        cases he
      | succ k =>
        simp only [shownPaths, List.getElem?_cons_succ] at hk
        have := shownPathsList_inj cs d.ViewInfo.Collapsed 0 j k q hj hk
        omega
theorem shownPathsList_inj : ∀ (cs : List FileNode) (pc : Bool) (o j k : Nat) (q : List Nat),
    (shownPathsList pc o cs)[j]? = some q → (shownPathsList pc o cs)[k]? = some q → j = k
  | [], pc, o, j, k, q => by
    intro hj
    simp [shownPathsList] at hj
  | c :: rest, pc, o, j, k, q => by
    intro hj hk
    rw [shownPathsList_cons] at hj hk
    by_cases hc : (!pc && !c.Data.ViewInfo.Hidden) = true
    · rw [if_pos hc] at hj hk
      by_cases hjl : j < ((shownPaths c).map (List.cons o)).length
      · rw [List.getElem?_append_left hjl, List.getElem?_map] at hj
        rcases Option.map_eq_some'.1 hj with ⟨q0, hq0, rfl⟩
        by_cases hkl : k < ((shownPaths c).map (List.cons o)).length
        · rw [List.getElem?_append_left hkl, List.getElem?_map] at hk
          rcases Option.map_eq_some'.1 hk with ⟨r0, hr0, hr⟩
          simp only [List.cons.injEq, true_and] at hr
          subst hr
          exact shownPaths_inj c j k r0 hq0 hr0
        · rw [List.getElem?_append_right (not_lt.1 hkl)] at hk
          obtain ⟨h2, t2, he, hle⟩ := shownPathsList_head_at _ _ _ _ _ hk
          simp only [List.cons.injEq] at he
          omega
      · rw [List.getElem?_append_right (not_lt.1 hjl)] at hj
        obtain ⟨h2, t2, he, hle⟩ := shownPathsList_head_at _ _ _ _ _ hj
        subst he
        by_cases hkl : k < ((shownPaths c).map (List.cons o)).length
        · rw [List.getElem?_append_left hkl, List.getElem?_map] at hk
          rcases Option.map_eq_some'.1 hk with ⟨r0, hr0, hr⟩
          simp only [List.cons.injEq] at hr
          omega
        · rw [List.getElem?_append_right (not_lt.1 hkl)] at hk
          have := shownPathsList_inj rest pc (o + 1) _ _ _ hj hk
          omega
    · rw [if_neg hc, List.nil_append] at hj hk
      exact shownPathsList_inj rest pc (o + 1) j k q hj hk
end

/-- Two visible nodes with the same path are at the same position. -/
theorem visibleNodes_path_inj (tree : TreeModel) (j k : Nat) (a b : NodeRef)
    (hj : tree.visibleNodes[j]? = some a) (hk : tree.visibleNodes[k]? = some b)
    (hp : a.Path = b.Path) : j = k :=
  shownPaths_inj tree.Root j k a.Path (visibleNodes_path_at tree j a hj)
    (hp ▸ visibleNodes_path_at tree k b hk)

mutual
theorem retainedNode_parent_mem : ∀ (n : FileNode) (pre : List Nat) (parent : Option NodeRef)
    (r : NodeRef), r ∈ retainedNode pre parent n →
    r.Parent = parent ∨ ∃ P ∈ retainedNode pre parent n, r.Parent = some P
  | .mk d cs, pre, parent, r => by
    intro hr
    simp only [retainedNode, List.mem_cons] at hr
    rcases hr with rfl | hr
    · left; rfl
    · right
      rcases retainedChildren_parent_mem cs pre (.mk pre parent d cs) 0 r hr with h | ⟨P, hP, h⟩
      · exact ⟨_, by simp only [retainedNode, List.mem_cons, true_or], h⟩
      · exact ⟨P, by simp only [retainedNode, List.mem_cons]; exact Or.inr hP, h⟩
theorem retainedChildren_parent_mem : ∀ (cs : List FileNode) (ppath : List Nat)
    (parent : NodeRef) (i : Nat) (r : NodeRef), r ∈ retainedChildren ppath parent i cs →
    r.Parent = some parent ∨ ∃ P ∈ retainedChildren ppath parent i cs, r.Parent = some P
  | [], ppath, parent, i, r => by
    intro hr
    simp [retainedChildren] at hr
  | c :: rest, ppath, parent, i, r => by
    intro hr
    simp only [retainedChildren, List.mem_append] at hr ⊢
    rcases hr with hr | hr
    · split at hr
      · rcases retainedNode_parent_mem c (ppath ++ [i]) (some parent) r hr with h | ⟨P, hP, h⟩
        · exact Or.inl h
        · right
          refine ⟨P, Or.inl ?_, h⟩
          rename_i hc
          rw [if_pos hc]
          exact hP
      · simp at hr
    · rcases retainedChildren_parent_mem rest ppath parent (i + 1) r hr with h | ⟨P, hP, h⟩
      · exact Or.inl h
      · exact Or.inr ⟨P, Or.inr hP, h⟩
end

/-- The parent of a visible node is a visible node. -/
theorem visibleNodes_parent_mem (tree : TreeModel) (r P : NodeRef)
    (hr : r ∈ tree.visibleNodes) (hP : r.Parent = some P) : P ∈ tree.visibleNodes := by
  rcases retainedNode_parent_mem tree.Root [] none r hr with h | ⟨P2, hP2, h⟩
  · rw [hP] at h; cases h
  · rw [hP] at h
    injection h with h
    rw [h]
    exact hP2

theorem foldl_keyLeft_found (pp : Option (List Nat)) (l : List NodeRef) : ∀ (c acc : Int),
    (∃ r ∈ l, pp = some r.Path) →
    ∃ (j : Nat) (node : NodeRef), l[j]? = some node ∧ pp = some node.Path
      ∧ (l.foldl (fun (s : Int × Int) r =>
          (s.1 + 1, if pp == some r.Path then s.1 else s.2)) (c, acc)).2 = c + j := by
  induction l with
  | nil => intro c acc h; obtain ⟨r, hr, _⟩ := h; cases hr
  | cons a l ih =>
    intro c acc h
    simp only [List.foldl_cons]
    by_cases hl : ∃ r ∈ l, pp = some r.Path
    · obtain ⟨j, node, hj, hpp, hres⟩ := ih (c + 1) (if pp == some a.Path then c else acc) hl
      refine ⟨j + 1, node, by simpa using hj, hpp, ?_⟩
      rw [hres]
      push_cast
      ring
    · have ha : pp = some a.Path := by
        obtain ⟨r, hr, hpp⟩ := h
        rcases List.mem_cons.1 hr with rfl | hr
        · exact hpp
        · exact absurd ⟨r, hr, hpp⟩ hl
      rcases foldl_keyLeft pp l (c + 1) (if pp == some a.Path then c else acc) with
        hres | ⟨j, node, hj, hpp, _⟩
      · refine ⟨0, a, List.getElem?_cons_zero, ha, ?_⟩
        rw [hres]
        simp [ha]
      · exact absurd ⟨node, List.getElem?_mem hj, hpp⟩ hl

/-- C14: when the selection resolves to a node n with a parent, the parent is at exactly one
position j of the visibility-filtered parent-first traversal (paths are unique), and keyLeft
completes, reports true, leaves the tree unchanged, sets treeIndex to j and sets
bufferIndexLowerBound to j if j is smaller than the old bufferIndexLowerBound and leaves it
otherwise; in the state it leaves the selection resolves to n's parent. -/
theorem keyLeft_to_parent (t : TreeView) (n P : NodeRef)
    (hsel : t.getAbsPositionNode = .ok (some n)) (hP : n.Parent = some P) :
    ∃ j : Nat, t.tree.visibleNodes[j]? = some P
      ∧ (∀ k node, t.tree.visibleNodes[k]? = some node → node.Path = P.Path → k = j)
      ∧ t.keyLeft
          = .ok ({ t with
              treeIndex := j
              bufferIndexLowerBound :=
                if (j : Int) < t.bufferIndexLowerBound then j else t.bufferIndexLowerBound },
            true)
      ∧ ({ t with
            treeIndex := j
            bufferIndexLowerBound :=
              if (j : Int) < t.bufferIndexLowerBound then j else t.bufferIndexLowerBound }
          : TreeView).getAbsPositionNode = .ok (some P) := by
  have hs := getAbsPositionNode_some t n hsel
  have hmem := visibleNodes_parent_mem t.tree n P (selected_mem t n hs) hP
  obtain ⟨j0, hj0⟩ := List.mem_iff_getElem?.1 hmem
  have huniq : ∀ k node, t.tree.visibleNodes[k]? = some node → node.Path = P.Path → k = j0 :=
    fun k node hk hp => visibleNodes_path_inj t.tree k j0 node P hk hj0 hp
  obtain ⟨j, node, hj, hpp, hres⟩ := foldl_keyLeft_found (pathOf n.Parent) t.tree.visibleNodes 0 0
    ⟨P, hmem, by rw [hP]; rfl⟩
  have hjj : j = j0 := by
    apply huniq j node hj
    rw [hP] at hpp
    simp only [pathOf, Option.map_some', Option.some.injEq] at hpp
    exact hpp.symm
  subst hjj
  rw [zero_add] at hres
  refine ⟨j, hj0, huniq, ?_, ?_⟩
  · rw [keyLeft_eq]
    have : (if 0 ≤ t.treeIndex then t.tree.visibleNodes[t.treeIndex.toNat]? else none)
        = some n := hs
    rw [this]
    simp only [hres]
  · rw [getAbsPositionNode_eq]
    simp only [Int.toNat_ofNat, Int.ofNat_nonneg, if_true]
    exact congrArg _ hj0

theorem keyLeft_to_parent_witness :
    ∃ j : Nat, scenarioBackOnA.tree.visibleNodes[j]? = some nestedRootRef
      ∧ (∀ k node, scenarioBackOnA.tree.visibleNodes[k]? = some node →
          node.Path = nestedRootRef.Path → k = j)
      ∧ scenarioBackOnA.keyLeft
          = .ok ({ scenarioBackOnA with
              treeIndex := j
              bufferIndexLowerBound :=
                if (j : Int) < scenarioBackOnA.bufferIndexLowerBound then j
                else scenarioBackOnA.bufferIndexLowerBound },
            true)
      ∧ ({ scenarioBackOnA with
            treeIndex := j
            bufferIndexLowerBound :=
              if (j : Int) < scenarioBackOnA.bufferIndexLowerBound then j
              else scenarioBackOnA.bufferIndexLowerBound }
          : TreeView).getAbsPositionNode = .ok (some nestedRootRef) :=
  keyLeft_to_parent scenarioBackOnA nestedDirRef nestedRootRef rfl rfl

/-! ## Stepping into a directory -/

theorem shownPathsList_first : ∀ (cs : List FileNode) (j i : Nat), firstShown cs = some i →
    (shownPathsList false j cs)[0]? = some [j + i] := by
  intro cs
  induction cs with
  | nil => intro j i h; simp [firstShown] at h
  | cons c rest ih =>
    intro j i h
    rw [shownPathsList_cons]
    by_cases hh : c.Data.ViewInfo.Hidden = true
    · simp only [firstShown, hh, if_true] at h
      rcases Option.map_eq_some'.1 h with ⟨i2, hi2, rfl⟩
      have := ih (j + 1) i2 hi2
      simp only [hh, Bool.not_true, Bool.and_false, Bool.false_eq_true, if_false,
        List.nil_append]
      rw [this]
      congr 2
      omega
    · have hh2 : c.Data.ViewInfo.Hidden = false := by simpa using hh
      simp only [firstShown, hh2, Bool.false_eq_true, if_false, Option.some.injEq] at h
      subst h
      cases c with
      | mk d cs2 =>
        simp only [fileNode_Data_mk] at hh2
        simp [shownPaths, hh2]

mutual
theorem shownPaths_next : ∀ (n : FileNode) (k : Nat) (p : List Nat) (d : NodeData)
    (cs : List FileNode) (i : Nat),
    (shownPaths n)[k]? = some p → n.dataAt p = some d → d.ViewInfo.Collapsed = false →
    n.childrenAt p = some cs → firstShown cs = some i →
    (shownPaths n)[k + 1]? = some (p ++ [i])
  | .mk d0 cs0, k, p, d, cs, i => by
    intro hk hd hc hcs hi
    cases k with
    | zero =>
      simp only [shownPaths, List.getElem?_cons_zero, Option.some.injEq] at hk
      subst hk
      simp only [FileNode.dataAt, Option.some.injEq] at hd
      simp only [FileNode.childrenAt, Option.some.injEq] at hcs
      subst hd
      subst hcs
      simp only [shownPaths, List.getElem?_cons_succ, hc, List.nil_append]
      have := shownPathsList_first cs0 0 i hi
      simpa using this
    | succ k =>
      simp only [shownPaths, List.getElem?_cons_succ] at hk ⊢
      obtain ⟨h, q, rfl, _⟩ := shownPathsList_head_at _ _ _ _ _ hk
      simp only [FileNode.dataAt] at hd
      simp only [FileNode.childrenAt] at hcs
      exact shownPathsList_next cs0 d0.ViewInfo.Collapsed 0 k h q d cs i hk hd hc hcs hi
theorem shownPathsList_next : ∀ (cs0 : List FileNode) (pc : Bool) (o k h : Nat) (q : List Nat)
    (d : NodeData) (cs : List FileNode) (i : Nat),
    (shownPathsList pc o cs0)[k]? = some (h :: q) → dataAtList (h - o) q cs0 = some d →
    d.ViewInfo.Collapsed = false → childrenAtList (h - o) q cs0 = some cs →
    firstShown cs = some i →
    (shownPathsList pc o cs0)[k + 1]? = some (h :: (q ++ [i]))
  | [], pc, o, k, h, q, d, cs, i => by
    intro hk
    simp [shownPathsList] at hk
  | c :: rest, pc, o, k, h, q, d, cs, i => by
    intro hk hd hc hcs hi
    rw [shownPathsList_cons] at hk ⊢
    by_cases hcond : (!pc && !c.Data.ViewInfo.Hidden) = true
    · rw [if_pos hcond] at hk ⊢
      by_cases hlt : k < ((shownPaths c).map (List.cons o)).length
      · rw [List.getElem?_append_left hlt, List.getElem?_map] at hk
        rcases Option.map_eq_some'.1 hk with ⟨q0, hq0, heq⟩
        simp only [List.cons.injEq] at heq
        obtain ⟨rfl, rfl⟩ := heq
        simp only [Nat.sub_self, dataAtList] at hd
        simp only [Nat.sub_self, childrenAtList] at hcs
        have ih := shownPaths_next c k q0 d cs i hq0 hd hc hcs hi
        have hx : ((shownPaths c).map (List.cons o))[k + 1]? = some (o :: (q0 ++ [i])) := by
          rw [List.getElem?_map, ih]; rfl
        have hlen : k + 1 < ((shownPaths c).map (List.cons o)).length :=
          (List.getElem?_eq_some.1 hx).1
        rw [List.getElem?_append_left hlen, hx]
      · rw [List.getElem?_append_right (not_lt.1 hlt)] at hk
        obtain ⟨h2, t2, heq, hle⟩ := shownPathsList_head_at _ _ _ _ _ hk
        simp only [List.cons.injEq] at heq
        obtain ⟨rfl, rfl⟩ := heq
        have hsub : h - o = (h - (o + 1)) + 1 := by omega
        rw [hsub] at hd hcs
        simp only [dataAtList] at hd
        simp only [childrenAtList] at hcs
        have ih := shownPathsList_next rest pc (o + 1) _ h q d cs i hk hd hc hcs hi
        have hge : ((shownPaths c).map (List.cons o)).length ≤ k + 1 := by omega
        rw [List.getElem?_append_right hge]
        have hidx : k + 1 - ((shownPaths c).map (List.cons o)).length
            = k - ((shownPaths c).map (List.cons o)).length + 1 := by omega
        rw [hidx]
        exact ih
    · rw [if_neg hcond, List.nil_append] at hk ⊢
      obtain ⟨h2, t2, heq, hle⟩ := shownPathsList_head_at _ _ _ _ _ hk
      simp only [List.cons.injEq] at heq
      obtain ⟨rfl, rfl⟩ := heq
      have hsub : h - o = (h - (o + 1)) + 1 := by omega
      rw [hsub] at hd hcs
      simp only [dataAtList] at hd
      simp only [childrenAtList] at hcs
      exact shownPathsList_next rest pc (o + 1) k h q d cs i hk hd hc hcs hi
end

mutual
theorem retainedNode_childrenAt : ∀ (n : FileNode) (pre : List Nat) (parent : Option NodeRef)
    (r : NodeRef), r ∈ retainedNode pre parent n →
    ∃ rel, r.Path = pre ++ rel ∧ n.childrenAt rel = some r.Children
  | .mk d cs, pre, parent, r => by
    intro hr
    simp only [retainedNode, List.mem_cons] at hr
    rcases hr with rfl | hr
    · exact ⟨[], by simp, rfl⟩
    · obtain ⟨i, rel, h1, h2⟩ := retainedChildren_childrenAt cs pre (.mk pre parent d cs) 0 r hr
      refine ⟨i :: rel, ?_, ?_⟩
      · simpa using h1
      · simpa [FileNode.childrenAt] using h2
theorem retainedChildren_childrenAt : ∀ (cs : List FileNode) (ppath : List Nat)
    (parent : NodeRef) (j : Nat) (r : NodeRef), r ∈ retainedChildren ppath parent j cs →
    ∃ i rel, r.Path = ppath ++ ((j + i) :: rel) ∧ childrenAtList i rel cs = some r.Children
  | [], ppath, parent, j, r => by
    intro hr
    simp [retainedChildren] at hr
  | c :: rest, ppath, parent, j, r => by
    intro hr
    simp only [retainedChildren, List.mem_append] at hr
    rcases hr with hr | hr
    · split at hr
      · obtain ⟨rel, h1, h2⟩ := retainedNode_childrenAt c (ppath ++ [j]) (some parent) r hr
        refine ⟨0, rel, ?_, ?_⟩
        · simpa using h1
        · simpa [childrenAtList] using h2
      · simp at hr
    · obtain ⟨i, rel, h1, h2⟩ := retainedChildren_childrenAt rest ppath parent (j + 1) r hr
      refine ⟨i + 1, rel, ?_, ?_⟩
      · rw [h1]
        congr 2
        omega
      · simpa [childrenAtList] using h2
end

theorem visibleNodes_childrenAt (tree : TreeModel) (r : NodeRef)
    (hr : r ∈ tree.visibleNodes) : tree.Root.childrenAt r.Path = some r.Children := by
  obtain ⟨rel, h1, h2⟩ := retainedNode_childrenAt tree.Root [] none r hr
  simp only [List.nil_append] at h1
  rw [h1]
  exact h2

mutual
theorem childrenAt_setCollapsedAt (v : Bool) : ∀ (n : FileNode) (p : List Nat),
    (n.setCollapsedAt v p).childrenAt p = n.childrenAt p
  | .mk d cs, [] => by simp only [FileNode.setCollapsedAt, FileNode.childrenAt]
  | .mk d cs, i :: p => by
    simp only [FileNode.setCollapsedAt, FileNode.childrenAt]
    exact childrenAtList_setCollapsedAtList v cs i p
theorem childrenAtList_setCollapsedAtList (v : Bool) : ∀ (cs : List FileNode) (i : Nat)
    (p : List Nat),
    childrenAtList i p (setCollapsedAtList v i p cs) = childrenAtList i p cs
  | [], i, p => by simp only [setCollapsedAtList]
  | c :: rest, 0, p => by
    simp only [setCollapsedAtList, childrenAtList]
    exact childrenAt_setCollapsedAt v c p
  | c :: rest, i + 1, p => by
    simp only [setCollapsedAtList, childrenAtList]
    exact childrenAtList_setCollapsedAtList v rest i p
end

theorem setCollapsed_same (d : NodeData) (v : Bool) (h : d.ViewInfo.Collapsed = v) :
    d.setCollapsed v = d := by
  subst h
  rfl

/-- The state after keyRight has stepped into the directory `d` under the cursor. -/
theorem keyRight_eq_of_dir (t : TreeView) (d : NodeRef) (hs : t.selected = some d)
    (hdir : d.Data.FileInfo.IsDir = true) (hch : d.Children ≠ []) :
    t.keyRight = .ok ({ t with
        tree := if d.Data.ViewInfo.Collapsed then t.tree.setCollapsed d false else t.tree
        treeIndex := t.treeIndex + 1
        bufferIndexLowerBound :=
          if t.treeIndex + 1 - t.bufferIndexLowerBound ≥ t.Box.height
          then t.bufferIndexLowerBound + 1 else t.bufferIndexLowerBound }, true) := by
  have h2 : ¬ ((d.Children.length == 0) = true) := by
    simp only [beq_iff_eq, List.length_eq_zero]
    exact hch
  simp only [TreeView.keyRight, getAbsPositionNode_selected, hs, hdir, Bool.not_true,
    Bool.false_eq_true, if_false, h2, TviewBox.GetInnerRect]

/-- C15, as stated, fails: on a collapsed directory whose first child is hidden and whose
second is not, keyRight expands the directory and moves treeIndex from 1 to 2, where the
selection resolves to the second child (path [0, 1]), not to the first. -/
theorem keyRight_skips_hidden_first_child :
    onHiddenFirstChild.selectedPath = some [0]
    ∧ (onHiddenFirstChild.tree.Root.dataAt [0]).map (fun d => d.FileInfo.IsDir) = some true
    ∧ (onHiddenFirstChild.tree.Root.childrenAt [0]).map List.length = some 2
    ∧ (onHiddenFirstChild.keyRight.toOption.map fun r => (r.2, r.1.indexes)) = some (true, 2, 1)
    ∧ (onHiddenFirstChild.keyRight.toOption.bind fun r => r.1.selectedPath) = some [0, 1] := by
  decide

/-- C15, amended: when the selection resolves to a directory d with at least one child,
keyRight completes and reports true, leaves d expanded whether or not it was collapsed before
and every other node as it was, increases treeIndex by exactly 1 and increases
bufferIndexLowerBound by 1 exactly when the new treeIndex minus the old bufferIndexLowerBound
is at least h; afterwards the selection resolves to the first child of d that is not hidden,
when d has one: to the first child of d when that child is not hidden. -/
theorem keyRight_into_directory (t : TreeView) (d : NodeRef)
    (hsel : t.getAbsPositionNode = .ok (some d)) (hdir : d.Data.FileInfo.IsDir = true)
    (hch : d.Children ≠ []) :
    ∃ t1, t.keyRight = .ok (t1, true)
      ∧ (∀ q, t1.tree.Root.dataAt q
          = if q = d.Path then some (d.Data.setCollapsed false) else t.tree.Root.dataAt q)
      ∧ t1.treeIndex = t.treeIndex + 1
      ∧ t1.bufferIndexLowerBound
          = (if t.treeIndex + 1 - t.bufferIndexLowerBound ≥ t.Box.height
              then t.bufferIndexLowerBound + 1 else t.bufferIndexLowerBound)
      ∧ (∀ i, firstShown d.Children = some i →
          ∃ child, t1.getAbsPositionNode = .ok (some child) ∧ child.Path = d.Path ++ [i])
      ∧ (∀ c rest, d.Children = c :: rest → c.Data.ViewInfo.Hidden = false →
          ∃ child, t1.getAbsPositionNode = .ok (some child) ∧ child.Path = d.Path ++ [0]) := by
  have hs := getAbsPositionNode_some t d hsel
  obtain ⟨h0, hcur⟩ := selected_some t d hs
  have hmem := selected_mem t d hs
  have hdata : ∀ q, (if d.Data.ViewInfo.Collapsed then t.tree.setCollapsed d false
        else t.tree).Root.dataAt q
      = if q = d.Path then some (d.Data.setCollapsed false) else t.tree.Root.dataAt q := by
    intro q
    by_cases hc : d.Data.ViewInfo.Collapsed = true
    · rw [if_pos hc]
      exact dataAt_setCollapsed t.tree d false hmem q
    · rw [if_neg hc]
      by_cases hq : q = d.Path
      · rw [if_pos hq, hq, visibleNodes_dataAt t.tree d hmem,
          setCollapsed_same d.Data false (by simpa using hc)]
      · rw [if_neg hq]
  have hchildren : (if d.Data.ViewInfo.Collapsed then t.tree.setCollapsed d false
        else t.tree).Root.childrenAt d.Path = some d.Children := by
    by_cases hc : d.Data.ViewInfo.Collapsed = true
    · rw [if_pos hc]
      simp only [TreeModel.setCollapsed]
      rw [childrenAt_setCollapsedAt]
      exact visibleNodes_childrenAt t.tree d hmem
    · rw [if_neg hc]
      exact visibleNodes_childrenAt t.tree d hmem
  have hpos : (shownPaths (if d.Data.ViewInfo.Collapsed then t.tree.setCollapsed d false
        else t.tree).Root)[t.treeIndex.toNat]? = some d.Path := by
    by_cases hc : d.Data.ViewInfo.Collapsed = true
    · rw [if_pos hc]
      exact shownPaths_store_at false t.tree.Root d.Path _
        (visibleNodes_path_at t.tree _ d hcur)
    · rw [if_neg hc]
      exact visibleNodes_path_at t.tree _ d hcur
  have hnext : ∀ i, firstShown d.Children = some i →
      ∃ child, ({ t with
          tree := if d.Data.ViewInfo.Collapsed then t.tree.setCollapsed d false else t.tree
          treeIndex := t.treeIndex + 1
          bufferIndexLowerBound :=
            if t.treeIndex + 1 - t.bufferIndexLowerBound ≥ t.Box.height
            then t.bufferIndexLowerBound + 1 else t.bufferIndexLowerBound }
          : TreeView).getAbsPositionNode = .ok (some child)
        ∧ child.Path = d.Path ++ [i] := by
    intro i hi
    have hd := hdata d.Path
    rw [if_pos rfl] at hd
    have hn := shownPaths_next _ _ _ _ _ i hpos hd rfl hchildren hi
    rw [← visibleNodes_paths, List.getElem?_map] at hn
    rcases Option.map_eq_some'.1 hn with ⟨child, hchild, hpath⟩
    refine ⟨child, ?_, hpath⟩
    rw [getAbsPositionNode_eq]
    have h1 : 0 ≤ t.treeIndex + 1 := by omega
    have h2 : (t.treeIndex + 1).toNat = t.treeIndex.toNat + 1 := by omega
    simp only [h1, if_true, h2]
    exact congrArg _ hchild
  refine ⟨_, keyRight_eq_of_dir t d hs hdir hch, hdata, rfl, rfl, hnext, ?_⟩
  intro c rest hcs hh
  apply hnext 0
  rw [hcs]
  simp only [firstShown, hh, Bool.false_eq_true, if_false]

theorem keyRight_into_directory_witness :
    ∃ t1, scenarioOnA.keyRight = .ok (t1, true)
      ∧ (∀ q, t1.tree.Root.dataAt q
          = if q = scenarioARef.Path then some (scenarioARef.Data.setCollapsed false)
            else scenarioOnA.tree.Root.dataAt q)
      ∧ t1.treeIndex = scenarioOnA.treeIndex + 1
      ∧ t1.bufferIndexLowerBound
          = (if scenarioOnA.treeIndex + 1 - scenarioOnA.bufferIndexLowerBound
                ≥ scenarioOnA.Box.height
              then scenarioOnA.bufferIndexLowerBound + 1 else scenarioOnA.bufferIndexLowerBound)
      ∧ (∀ i, firstShown scenarioARef.Children = some i →
          ∃ child, t1.getAbsPositionNode = .ok (some child)
            ∧ child.Path = scenarioARef.Path ++ [i])
      ∧ (∀ c rest, scenarioARef.Children = c :: rest → c.Data.ViewInfo.Hidden = false →
          ∃ child, t1.getAbsPositionNode = .ok (some child)
            ∧ child.Path = scenarioARef.Path ++ [0]) :=
  keyRight_into_directory scenarioOnA scenarioARef rfl rfl (fun h => List.noConfusion h)

/-! ## A traversal that reports an error -/

theorem getAbsPositionNode_with (t : TreeView) :
    t.getAbsPositionNode
      = getAbsPositionNodeWith (fun v e s => t.tree.VisitDepthParentFirst v e s) t.treeIndex :=
  rfl

theorem collapseDir_with (t : TreeView) :
    t.collapseDir = t.collapseDirWith (fun v e s => t.tree.VisitDepthParentFirst v e s) := rfl

theorem keyRight_with (t : TreeView) :
    t.keyRight = t.keyRightWith (fun v e s => t.tree.VisitDepthParentFirst v e s) := rfl

/-- C12, as stated, fails: with the selection on the inner directory of `nestedDir` (position
1) and a traversal that reports an error at node 2, after the visitor was invoked on nodes 0
and 1, node resolution returns the directory: collapseDir reports true and collapses it, and
keyRight reports true and moves to treeIndex 2. -/
theorem collapseDir_keyRight_act_despite_error :
    ((nestedDir.VisitDepthParentFirstFailing 2 inconsistency
          (getAbsPositionNode.visitor onNestedDir.treeIndex) getAbsPositionNode.evaluator
          (0, none)).toOption.map fun r => r.err.isSome) = some true
    ∧ dirFlags onNestedDir.tree.Root = [false, false]
    ∧ ((onNestedDir.collapseDirWith
          (fun v e s => nestedDir.VisitDepthParentFirstFailing 2 inconsistency v e s)).toOption.map
        fun r => (r.2, dirFlags r.1.tree.Root)) = some (true, [false, true])
    ∧ onNestedDir.indexes = (1, 0)
    ∧ ((onNestedDir.keyRightWith
          (fun v e s => nestedDir.VisitDepthParentFirstFailing 2 inconsistency v e s)).toOption.map
        fun r => (r.2, r.1.indexes)) = some (true, 2, 1) := by
  decide

/-- C12, amended: whatever error VisitDepthParentFirst reports during node resolution is only
logged, and the node the visitor had stored before it is returned. collapseDir and keyRight
report false and leave the state unchanged when no node had been stored; otherwise they do
what they do for any other traversal, with or without error, that stores that node. -/
theorem collapseDir_keyRight_on_traversal_error (visit : ResolveTraversal) (t : TreeView)
    (r : VisitResult TreeModel (Int × Option NodeRef))
    (hv : visit (getAbsPositionNode.visitor t.treeIndex) getAbsPositionNode.evaluator (0, none)
      = .ok r) :
    getAbsPositionNodeWith visit t.treeIndex = .ok r.state.2
    ∧ (r.state.2 = none →
        t.collapseDirWith visit = .ok (t, false) ∧ t.keyRightWith visit = .ok (t, false))
    ∧ (∀ (visit2 : ResolveTraversal) (r2 : VisitResult TreeModel (Int × Option NodeRef)),
        visit2 (getAbsPositionNode.visitor t.treeIndex) getAbsPositionNode.evaluator (0, none)
          = .ok r2 →
        r2.state.2 = r.state.2 →
        t.collapseDirWith visit = t.collapseDirWith visit2
        ∧ t.keyRightWith visit = t.keyRightWith visit2) := by
  have h1 : getAbsPositionNodeWith visit t.treeIndex = .ok r.state.2 := by
    simp only [getAbsPositionNodeWith, hv]
  refine ⟨h1, ?_, ?_⟩
  · intro hnone
    rw [hnone] at h1
    simp only [TreeView.collapseDirWith, TreeView.keyRightWith, h1, and_self]
  · intro visit2 r2 hv2 hsame
    have h2 : getAbsPositionNodeWith visit2 t.treeIndex = .ok r.state.2 := by
      simp only [getAbsPositionNodeWith, hv2, hsame]
    simp only [TreeView.collapseDirWith, TreeView.keyRightWith, h1, h2, and_self]

theorem collapseDir_keyRight_on_traversal_error_witness :
    ((nestedDir.VisitDepthParentFirstFailing 1 inconsistency
          (getAbsPositionNode.visitor onNestedDir.treeIndex) getAbsPositionNode.evaluator
          (0, none)).toOption.map fun r => r.err.isSome) = some true
    ∧ getAbsPositionNodeWith
        (fun v e s => nestedDir.VisitDepthParentFirstFailing 1 inconsistency v e s)
        onNestedDir.treeIndex = .ok none
    ∧ onNestedDir.collapseDirWith
        (fun v e s => nestedDir.VisitDepthParentFirstFailing 1 inconsistency v e s)
        = .ok (onNestedDir, false)
    ∧ onNestedDir.keyRightWith
        (fun v e s => nestedDir.VisitDepthParentFirstFailing 1 inconsistency v e s)
        = .ok (onNestedDir, false) :=
  have h := collapseDir_keyRight_on_traversal_error
    (fun v e s => nestedDir.VisitDepthParentFirstFailing 1 inconsistency v e s) onNestedDir
    ⟨nestedDir, (1, none), some inconsistency⟩ rfl
  ⟨by decide, h.1, (h.2.1 rfl).1, (h.2.1 rfl).2⟩

/-! ## Setup and the input handler -/

theorem setup_bindingNames (m : TreeModelMethods) :
    (Setup.bindingSettings m).map Prod.fst = Setup.bindingNames := rfl

theorem setup_resolve_error_iff (config : KeyBindingConfig) :
    ∀ (iteration : List (String × keyAction)) (ba : List KeyBinding) (aa : List keyAction),
    (∃ p, Setup.resolve config iteration ba aa = .error p)
      ↔ ∃ e ∈ iteration, ∃ err, config.GetKeyBinding e.1 = .error err := by
  intro iteration
  induction iteration with
  | nil =>
    intro ba aa
    simp [Setup.resolve]
  | cons e rest ih =>
    intro ba aa
    obtain ⟨name, action⟩ := e
    cases hc : config.GetKeyBinding name with
    | error err =>
      simp only [Setup.resolve, hc]
      constructor
      · intro _
        exact ⟨(name, action), List.mem_cons_self _ _, err, hc⟩
      · intro _
        exact ⟨_, rfl⟩
    | ok b =>
      simp only [Setup.resolve, hc, ih]
      constructor
      · rintro ⟨e, he, err, herr⟩
        exact ⟨e, List.mem_cons_of_mem _ he, err, herr⟩
      · rintro ⟨e, he, err, herr⟩
        rcases List.mem_cons.1 he with rfl | he
        · rw [hc] at herr
          cases herr
        · exact ⟨e, he, err, herr⟩

theorem setup_resolve_ok (config : KeyBindingConfig) :
    ∀ (iteration : List (String × keyAction)) (ba : List KeyBinding) (aa : List keyAction),
    (∀ e ∈ iteration, ∃ b, config.GetKeyBinding e.1 = .ok b) →
    Setup.resolve config iteration ba aa
      = .ok (ba ++ (Setup.bound config iteration).map Prod.fst,
          aa ++ (Setup.bound config iteration).map Prod.snd) := by
  intro iteration
  induction iteration with
  | nil =>
    intro ba aa _
    simp [Setup.resolve, Setup.bound]
  | cons e rest ih =>
    intro ba aa hall
    obtain ⟨name, action⟩ := e
    obtain ⟨b, hb⟩ := hall (name, action) (List.mem_cons_self _ _)
    have hb2 : config.GetKeyBinding name = .ok b := hb
    have ihr := ih (ba ++ [b]) (aa ++ [action])
      (fun e he => hall e (List.mem_cons_of_mem _ he))
    simp only [Setup.resolve, hb2, ihr]
    simp only [Setup.bound, List.filterMap_cons, hb2, List.map_cons, List.append_assoc,
      List.singleton_append]

theorem setup_dispatch_eq (event : EventKey) :
    ∀ (bs : List (KeyBinding × keyAction)) (pre : List keyAction) (t : TreeView),
    Setup.dispatch (pre ++ bs.map Prod.snd) event pre.length (bs.map Prod.fst) t
      = runActions ((bs.filter fun b => b.1.Match event).map Prod.snd) t := by
  intro bs
  induction bs with
  | nil =>
    intro pre t
    simp [Setup.dispatch, runActions]
  | cons b rest ih =>
    intro pre t
    have hpre : pre ++ (b :: rest).map Prod.snd = (pre ++ [b.2]) ++ rest.map Prod.snd := by
      simp
    have hlen : pre.length + 1 = (pre ++ [b.2]).length := by simp
    have hget : (pre ++ (b :: rest).map Prod.snd)[pre.length]? = some b.2 := by
      rw [List.getElem?_append_right (le_refl _)]
      simp
    by_cases hm : b.1.Match event = true
    · simp only [List.map_cons, Setup.dispatch, hm, if_true, List.filter_cons, runActions]
      have hget2 : (pre ++ b.2 :: rest.map Prod.snd)[pre.length]? = some b.2 := by
        simpa using hget
      rw [hget2]
      dsimp only
      cases hact : b.2 t with
      | error p => rfl
      | ok r =>
        dsimp only
        have := ih (pre ++ [b.2]) r.1
        rw [← hlen] at this
        simpa using this
    · simp only [List.map_cons, Setup.dispatch, hm, if_false, List.filter_cons,
        Bool.false_eq_true]
      have := ih (pre ++ [b.2]) t
      rw [← hlen] at this
      simpa using this

theorem setup_name_mem (m : TreeModelMethods) (iteration : List (String × keyAction))
    (hperm : iteration.Perm (Setup.bindingSettings m)) (name : String) :
    name ∈ Setup.bindingNames ↔ ∃ e ∈ iteration, e.1 = name := by
  rw [← setup_bindingNames m, List.mem_map]
  constructor
  · rintro ⟨e, he, h⟩
    exact ⟨e, hperm.mem_iff.2 he, h⟩
  · rintro ⟨e, he, h⟩
    exact ⟨e, hperm.mem_iff.1 he, h⟩

theorem setup_bound_actions (config : KeyBindingConfig) :
    ∀ (iteration : List (String × keyAction)),
    (∀ e ∈ iteration, ∃ b, config.GetKeyBinding e.1 = .ok b) →
    (Setup.bound config iteration).map Prod.snd = iteration.map Prod.snd := by
  intro iteration
  induction iteration with
  | nil => intro _; rfl
  | cons e rest ih =>
    intro hall
    obtain ⟨b, hb⟩ := hall e (List.mem_cons_self _ _)
    have ihr := ih (fun e he => hall e (List.mem_cons_of_mem _ he))
    simp only [Setup.bound] at ihr ⊢
    simp only [List.filterMap_cons, hb, List.map_cons, ihr]

/-- C13: whatever the order in which the nine entries of bindingSettings are iterated, Setup
panics, installing no input handler, if and only if the key-binding configuration fails to
resolve at least one of the nine names; when all nine resolve, Setup returns and the handler it
installs runs, for each event, after the arrow-key switch, the action of every binding whose
Match returns true, in the order of the iteration. -/
theorem Setup_spec (t : TreeView) (m : TreeModelMethods) (config : KeyBindingConfig)
    (iteration : List (String × keyAction))
    (hperm : iteration.Perm (Setup.bindingSettings m)) :
    ((∃ p, t.Setup m config iteration = .error p)
        ↔ ∃ name ∈ Setup.bindingNames, ∃ err, config.GetKeyBinding name = .error err)
    ∧ ((∀ name ∈ Setup.bindingNames, ∃ b, config.GetKeyBinding name = .ok b) →
        ∃ handler,
          t.Setup m config iteration
            = .ok ({ t with tree := (m.SetLayerIndex t.tree 0).1 }, handler)
          ∧ (Setup.bound config iteration).map Prod.snd = iteration.map Prod.snd
          ∧ ∀ event s, handler event s
              = match Setup.arrowKeys event s with
                | .error p => .error p
                | .ok s1 =>
                  runActions
                    (((Setup.bound config iteration).filter fun b => b.1.Match event).map
                      Prod.snd) s1) := by
  constructor
  · have h1 : (∃ p, t.Setup m config iteration = .error p)
        ↔ ∃ p, Setup.resolve config iteration [] [] = .error p := by
      simp only [TreeView.Setup]
      cases Setup.resolve config iteration [] [] with
      | error p => simp
      | ok r => simp
    rw [h1, setup_resolve_error_iff]
    constructor
    · rintro ⟨e, he, err, herr⟩
      exact ⟨e.1, (setup_name_mem m iteration hperm e.1).2 ⟨e, he, rfl⟩, err, herr⟩
    · rintro ⟨name, hname, err, herr⟩
      obtain ⟨e, he, rfl⟩ := (setup_name_mem m iteration hperm name).1 hname
      exact ⟨e, he, err, herr⟩
  · intro hall
    have hall2 : ∀ e ∈ iteration, ∃ b, config.GetKeyBinding e.1 = .ok b :=
      fun e he => hall e.1 ((setup_name_mem m iteration hperm e.1).2 ⟨e, he, rfl⟩)
    refine ⟨Setup.inputHandler ([] ++ (Setup.bound config iteration).map Prod.fst)
      ([] ++ (Setup.bound config iteration).map Prod.snd), ?_,
      setup_bound_actions config iteration hall2, ?_⟩
    · simp only [TreeView.Setup, setup_resolve_ok config iteration [] [] hall2]
    · intro event s
      simp only [Setup.inputHandler, List.nil_append]
      cases Setup.arrowKeys event s with
      | error p => rfl
      | ok s1 =>
        have := setup_dispatch_eq event (Setup.bound config iteration) [] s1
        simpa using this

theorem Setup_spec_witness :
    ∃ handler,
      startHeightTwo.Setup idleMethods oneKeyConfig (Setup.bindingSettings idleMethods)
        = .ok ({ startHeightTwo with
            tree := (idleMethods.SetLayerIndex startHeightTwo.tree 0).1 }, handler)
      ∧ (Setup.bound oneKeyConfig (Setup.bindingSettings idleMethods)).map Prod.snd
          = (Setup.bindingSettings idleMethods).map Prod.snd
      ∧ ∀ event s, handler event s
          = match Setup.arrowKeys event s with
            | .error p => .error p
            | .ok s1 =>
              runActions
                (((Setup.bound oneKeyConfig (Setup.bindingSettings idleMethods)).filter
                  fun b => b.1.Match event).map Prod.snd) s1 :=
  (Setup_spec startHeightTwo idleMethods oneKeyConfig (Setup.bindingSettings idleMethods)
    (List.Perm.refl _)).2 (fun _ _ => ⟨_, rfl⟩)

end Dive
